import Mathlib

/-!
# Verification of the AdventOfCode 2016 solutions (Rust)

This file gives a shallow embedding in Lean 4 of the parts of the
repository's Rust source that the checked claims are about, and proves or
refutes each claim against that embedding.  Each embedded definition is
translated from the named Rust function; doc comments point at the source.
-/

set_option maxHeartbeats 1000000

namespace AoC2016

/-! ## Repository structure: the registered solvers

Every daily module registers its solver entry points with the
`#[aoc(dayN, partM)]` attribute.  The list below records, straight from the
source files `src/day_01.rs` … `src/day_25.rs`, every `(day, part)` pair
that carries such an attribute (commented-out attributes excluded). -/

/-- The `(day, part)` pairs registered via `#[aoc(dayN, partM)]` across
`src/day_01.rs` … `src/day_25.rs`.  Days 1–24 each register a part-1 and a
part-2 solver; `day_25.rs` registers only `part_1_faster` under
`#[aoc(day25, part1)]`. -/
def registeredSolvers : List (Nat × Nat) :=
  [(1, 1), (1, 2), (2, 1), (2, 2), (3, 1), (3, 2), (4, 1), (4, 2),
   (5, 1), (5, 2), (6, 1), (6, 2), (7, 1), (7, 2), (8, 1), (8, 2),
   (9, 1), (9, 2), (10, 1), (10, 2), (11, 1), (11, 2), (12, 1), (12, 2),
   (13, 1), (13, 2), (14, 1), (14, 2), (15, 1), (15, 2), (16, 1), (16, 2),
   (17, 1), (17, 2), (18, 1), (18, 2), (19, 1), (19, 2), (20, 1), (20, 2),
   (21, 1), (21, 2), (22, 1), (22, 2), (23, 1), (23, 2), (24, 1), (24, 2),
   (25, 1)]

/-! ## Day 12: the assembly-like machine (`src/day_12.rs`) -/

namespace Day12

/-- The four registers of `day_12.rs` (`enum Reg`). -/
inductive Reg where
  | A | B | C | D
deriving DecidableEq, Repr

/-- `enum RegOrValue` from `day_12.rs`. -/
inductive RegOrValue where
  | reg (r : Reg)
  | value (v : Int)
deriving DecidableEq, Repr

/-- `enum Instruction` from `day_12.rs`.  `jnz`'s offset is an `isize`,
modelled as `Int`. -/
inductive Instruction where
  | cpy (src : RegOrValue) (dst : Reg)
  | inc (r : Reg)
  | dec (r : Reg)
  | jnz (src : RegOrValue) (delta : Int)
deriving DecidableEq, Repr

/-- `struct Machine` from `day_12.rs`.  The register file `[i64; 4]` is
modelled as a function from register names to `Int`. -/
structure Machine where
  instructions : List Instruction
  ip : Nat
  registers : Reg → Int
  stopped : Bool

/-- `Machine::new`: instruction pointer 0, all registers 0, not stopped. -/
def Machine.new (instructions : List Instruction) : Machine :=
  { instructions := instructions
    ip := 0
    registers := fun _ => 0
    stopped := false }

/-- `Machine::get_register`. -/
def Machine.get_register (m : Machine) (r : Reg) : Int := m.registers r

/-- `Machine::set_register`. -/
def Machine.set_register (m : Machine) (r : Reg) (v : Int) : Machine :=
  { m with registers := fun r' => if r' = r then v else m.registers r' }

/-- `Machine::get_value`. -/
def Machine.get_value (m : Machine) (s : RegOrValue) : Int :=
  match s with
  | .reg r => m.get_register r
  | .value v => v

/-- `usize::checked_add_signed` on a 64-bit `usize`: `none` when the sum
leaves `[0, 2^64)`. -/
def checkedAddSigned (ip : Nat) (delta : Int) : Option Nat :=
  let r : Int := (ip : Int) + delta
  if r < 0 ∨ (2 : Int)^64 ≤ r then none else some r.toNat

/-- The fall-through tail of `Machine::step`:
`self.ip += 1; self.stopped = self.ip >= self.instructions.len();`. -/
def Machine.advance (m : Machine) : Machine :=
  { m with ip := m.ip + 1, stopped := decide (m.instructions.length ≤ m.ip + 1) }

/-- `Machine::step`.  The instruction fetch `self.instructions[self.ip]`
panics in Rust when `ip` is out of bounds; that failure is modelled as
`none`.  Every other branch of `step` is total. -/
def Machine.step (m : Machine) : Option Machine :=
  if m.stopped then some m
  else
    match m.instructions[m.ip]? with
    | none => none
    | some instr =>
      match instr with
      | .cpy src dst => some (m.set_register dst (m.get_value src)).advance
      | .inc r => some (m.set_register r (m.get_register r + 1)).advance
      | .dec r => some (m.set_register r (m.get_register r - 1)).advance
      | .jnz src delta =>
        if m.get_value src ≠ 0 then
          match checkedAddSigned m.ip delta with
          | some newIp =>
            if newIp < m.instructions.length then some { m with ip := newIp }
            else some { m with stopped := true }
          | none => some { m with stopped := true }
        else some m.advance

/-- `Machine::run`, with explicit fuel standing for the unbounded `while`
loop; `none` when the fuel runs out or a step faults. -/
def Machine.run (fuel : Nat) (m : Machine) : Option Machine :=
  match fuel with
  | 0 => if m.stopped then some m else none
  | fuel + 1 =>
    if m.stopped then some m
    else match m.step with
      | none => none
      | some m' => Machine.run fuel m'

/-- The safety invariant: a machine that is not stopped has its instruction
pointer strictly inside the instruction list. -/
def Machine.inv (m : Machine) : Prop :=
  m.stopped = false → m.ip < m.instructions.length

end Day12

/-! ## Theorems for claims C8 and C10 -/

/-- C8 (counterexample): the claim says the day 25 module provides both a
part-1 and a part-2 solver, but `day_25.rs` registers no part-2 solver:
`(25, 2)` is not among the registered `(day, part)` pairs. -/
theorem claim_C8_counterexample : (25, 2) ∉ registeredSolvers := by decide

/-- C8 (amended): every day 1–24 registers both a part-1 and a part-2
solver; day 25 registers a part-1 solver (`part_1_faster`) but no part-2
solver. -/
theorem claim_C8 :
    (∀ d ∈ List.range' 1 24,
      (d, 1) ∈ registeredSolvers ∧ (d, 2) ∈ registeredSolvers) ∧
    (25, 1) ∈ registeredSolvers ∧ (25, 2) ∉ registeredSolvers := by
  refine ⟨by decide, by decide, by decide⟩

/-- Witness for C8 at the concrete day 7. -/
theorem claim_C8_witness :
    (7, 1) ∈ registeredSolvers ∧ (7, 2) ∈ registeredSolvers :=
  claim_C8.1 7 (by decide)

/-- C10: for a non-empty day 12 program, (a) the freshly built machine
satisfies the invariant that a non-stopped machine has `ip` inside the
program; (b) a step from any machine satisfying the invariant fetches its
instruction successfully (never reads out of bounds) and preserves the
invariant; (c) a stopped machine steps to itself; (d) a `jnz` that is taken
but whose destination is out of bounds (negative, past `usize`, or at or
past the end of the program) sets the stopped flag and changes nothing
else; (e) `run` makes no state changes once stopped. -/
theorem claim_C10 (instrs : List Day12.Instruction) (hne : instrs ≠ []) :
    (Day12.Machine.new instrs).inv ∧
    (∀ m : Day12.Machine, m.inv → ∃ m', m.step = some m' ∧ m'.inv) ∧
    (∀ m : Day12.Machine, m.stopped = true → m.step = some m) ∧
    (∀ (m : Day12.Machine) (src : Day12.RegOrValue) (delta : Int),
      m.stopped = false →
      m.instructions[m.ip]? = some (.jnz src delta) →
      m.get_value src ≠ 0 →
      (∀ newIp, Day12.checkedAddSigned m.ip delta = some newIp →
          m.instructions.length ≤ newIp) →
      m.step = some { m with stopped := true }) ∧
    (∀ (fuel : Nat) (m : Day12.Machine), m.stopped = true →
      Day12.Machine.run fuel m = some m) := by
  refine ⟨?_, ?_, ?_, ?_, ?_⟩
  · intro _
    simpa [Day12.Machine.new] using List.length_pos.mpr hne
  · intro m hinv
    by_cases hstop : m.stopped
    · exact ⟨m, by simp [Day12.Machine.step, hstop], fun h => absurd hstop (by simp [h])⟩
    · have hb : m.stopped = false := by simpa using hstop
      have hip : m.ip < m.instructions.length := hinv hb
      have hget : m.instructions[m.ip]? = some m.instructions[m.ip] :=
        List.getElem?_eq_getElem hip
      cases hi : m.instructions[m.ip] with
      | cpy src dst =>
        refine ⟨(m.set_register dst (m.get_value src)).advance,
          by simp [Day12.Machine.step, hb, hget, hi], ?_⟩
        intro h
        simp only [Day12.Machine.advance, Day12.Machine.set_register,
          decide_eq_false_iff_not, not_le] at h ⊢
        exact h
      | inc r =>
        refine ⟨(m.set_register r (m.get_register r + 1)).advance,
          by simp [Day12.Machine.step, hb, hget, hi], ?_⟩
        intro h
        simp only [Day12.Machine.advance, Day12.Machine.set_register,
          decide_eq_false_iff_not, not_le] at h ⊢
        exact h
      | dec r =>
        refine ⟨(m.set_register r (m.get_register r - 1)).advance,
          by simp [Day12.Machine.step, hb, hget, hi], ?_⟩
        intro h
        simp only [Day12.Machine.advance, Day12.Machine.set_register,
          decide_eq_false_iff_not, not_le] at h ⊢
        exact h
      | jnz src delta =>
        by_cases hv : m.get_value src = 0
        · refine ⟨m.advance, by simp [Day12.Machine.step, hb, hget, hi, hv], ?_⟩
          intro h
          simp only [Day12.Machine.advance, decide_eq_false_iff_not, not_le] at h ⊢
          exact h
        · cases hadd : Day12.checkedAddSigned m.ip delta with
          | none =>
            exact ⟨{ m with stopped := true },
              by simp [Day12.Machine.step, hb, hget, hi, hv, hadd],
              fun h => by simp at h⟩
          | some newIp =>
            by_cases hlt : newIp < m.instructions.length
            · exact ⟨{ m with ip := newIp },
                by simp [Day12.Machine.step, hb, hget, hi, hv, hadd, hlt],
                fun _ => hlt⟩
            · exact ⟨{ m with stopped := true },
                by simp [Day12.Machine.step, hb, hget, hi, hv, hadd, hlt],
                fun h => by simp at h⟩
  · intro m hstop
    simp [Day12.Machine.step, hstop]
  · intro m src delta hb hget hv hoob
    rcases hadd : Day12.checkedAddSigned m.ip delta with _ | newIp
    · simp [Day12.Machine.step, hb, hget, hv, hadd]
    · have := hoob newIp hadd
      simp [Day12.Machine.step, hb, hget, hv, hadd, not_lt.mpr this]
  · intro fuel m hstop
    cases fuel <;> simp [Day12.Machine.run, hstop]

/-- Witness for C10 at the concrete one-instruction program `inc a`. -/
theorem claim_C10_witness :
    (Day12.Machine.new [Day12.Instruction.inc Day12.Reg.A]).inv :=
  (claim_C10 [Day12.Instruction.inc Day12.Reg.A] (by simp)).1

/-! ## Day 20: interval coverage (`src/day_20.rs`) -/

namespace Day20

/-- `struct Range(u32, u32)` from `day_20.rs`: a blocked range of
addresses, `lo` and `hi` inclusive. -/
structure Range where
  lo : Nat
  hi : Nat
deriving DecidableEq, Repr

/-- An address is blocked when some listed range contains it. -/
def Blocked (blocked : List Range) (x : Nat) : Prop :=
  ∃ r ∈ blocked, r.lo ≤ x ∧ x ≤ r.hi

instance (blocked : List Range) (x : Nat) : Decidable (Blocked blocked x) :=
  List.decidableBEx _ blocked

/-- The sort key of `part_1`: ascending by `(r.0, Reverse(r.1))`, i.e. by
start, ties broken by larger end first. -/
def rangeLE (r s : Range) : Bool :=
  decide (r.lo < s.lo) || (decide (r.lo = s.lo) && decide (s.hi ≤ r.hi))

/-- The running maximum of the heap contents on top of `last_close`. -/
def maxOf (hp : List Nat) (lc : Nat) : Nat := hp.foldr max lc

/-- The `while let Some(&end) = open.peek()` loop of `part_1`: while the
largest pending end is at most `ub`, fold it into `last_close` and pop it.
`fuel` is the structural bound `heap.length` supplied by `drain`. -/
def drainGo (ub : Nat) : Nat → List Nat → Nat → List Nat × Nat
  | 0, heap, lc => (heap, lc)
  | fuel + 1, heap, lc =>
    match heap.max? with
    | none => (heap, lc)
    | some e =>
      if e ≤ ub then drainGo ub fuel (heap.erase e) (max lc e) else (heap, lc)

/-- The pop-loop of `part_1` (see `drainGo`). -/
def drain (ub : Nat) (heap : List Nat) (lc : Nat) : List Nat × Nat :=
  drainGo ub heap.length heap lc

/-- The loop body of `part_1` over the sorted ranges, carrying the `open`
max-heap (as a list) and `last_close`; falls through to `0` when the ranges
are exhausted.  `range.1 + 1` is `u32` addition, hence the `% 2^32`. -/
def sweep : List Range → List Nat → Nat → Nat
  | [], _, _ => 0
  | r :: rest, openHeap, last_close =>
    let p := drain r.lo openHeap last_close
    if p.1.isEmpty ∧ p.2 < r.lo then p.2
    else sweep rest ((r.hi + 1) % 2 ^ 32 :: p.1) p.2

/-- `part_1` from `day_20.rs`: sort by `(start, Reverse(end))`, then sweep. -/
def part_1 (blocked : List Range) : Nat :=
  sweep (blocked.mergeSort rangeLE) [] 0

theorem rangeLE_trans (a b c : Range) (hab : rangeLE a b = true)
    (hbc : rangeLE b c = true) : rangeLE a c = true := by
  simp only [rangeLE, Bool.or_eq_true, Bool.and_eq_true, decide_eq_true_eq] at *
  omega

theorem rangeLE_total (a b : Range) : (rangeLE a b || rangeLE b a) = true := by
  simp only [rangeLE, Bool.or_eq_true, Bool.and_eq_true, decide_eq_true_eq]
  omega

theorem le_maxOf_of_mem {hp : List Nat} {lc e : Nat} (he : e ∈ hp) :
    e ≤ maxOf hp lc := by
  induction hp with
  | nil => cases he
  | cons a t ih =>
    rcases List.mem_cons.mp he with rfl | ht
    · exact Nat.le_max_left _ _
    · exact le_trans (ih ht) (Nat.le_max_right _ _)

theorem lc_le_maxOf (hp : List Nat) (lc : Nat) : lc ≤ maxOf hp lc := by
  induction hp with
  | nil => exact le_refl _
  | cons a t ih => exact le_trans ih (Nat.le_max_right _ _)

theorem maxOf_le {hp : List Nat} {lc k : Nat} (h1 : lc ≤ k)
    (h2 : ∀ e ∈ hp, e ≤ k) : maxOf hp lc ≤ k := by
  induction hp with
  | nil => exact h1
  | cons a t ih =>
    exact max_le (h2 a (List.mem_cons_self a t))
      (ih fun e he => h2 e (List.mem_cons_of_mem a he))

theorem maxOf_init_max (t : List Nat) (lc v : Nat) :
    maxOf t (max lc v) = max v (maxOf t lc) := by
  induction t with
  | nil => exact Nat.max_comm lc v
  | cons a t ih =>
    show max a (maxOf t (max lc v)) = max v (max a (maxOf t lc))
    rw [ih, Nat.max_left_comm]

theorem maxOf_erase {hp : List Nat} {lc e : Nat} (he : e ∈ hp) :
    maxOf (hp.erase e) (max lc e) = maxOf hp lc := by
  induction hp with
  | nil => cases he
  | cons a t ih =>
    by_cases hae : a = e
    · subst hae
      rw [List.erase_cons_head]
      exact maxOf_init_max t lc a
    · rw [List.erase_cons_tail (by simpa using hae)]
      have het : e ∈ t := by
        rcases List.mem_cons.mp he with rfl | ht
        · exact absurd rfl hae
        · exact ht
      show max a (maxOf (t.erase e) (max lc e)) = max a (maxOf t lc)
      rw [ih het]

theorem drain_all {ub : Nat} {hp : List Nat} {lc : Nat}
    (h : ∀ e ∈ hp, e ≤ ub) : drain ub hp lc = ([], maxOf hp lc) := by
  have main : ∀ fuel hp lc, hp.length ≤ fuel → (∀ e ∈ hp, e ≤ ub) →
      drainGo ub fuel hp lc = ([], maxOf hp lc) := by
    intro fuel
    induction fuel with
    | zero =>
      intro hp lc hlen _
      have : hp = [] := List.length_eq_zero.mp (Nat.le_zero.mp hlen)
      subst this
      rfl
    | succ fuel ih =>
      intro hp lc hlen hub
      cases hmax : hp.max? with
      | none =>
        have : hp = [] := List.max?_eq_none_iff.mp hmax
        subst this
        rfl
      | some e =>
        have he : e ∈ hp := List.max?_mem (fun a b => max_choice a b) hmax
        have hlen' : (hp.erase e).length ≤ fuel := by
          rw [List.length_erase_of_mem he]
          omega
        have hub' : ∀ x ∈ hp.erase e, x ≤ ub :=
          fun x hx => hub x (List.mem_of_mem_erase hx)
        simp only [drainGo, hmax, hub e he, if_pos]
        rw [ih (hp.erase e) (max lc e) hlen' hub', maxOf_erase he]
  exact main hp.length hp lc (le_refl _) h

theorem drain_gt {ub : Nat} {hp : List Nat} {lc e : Nat}
    (hmax : hp.max? = some e) (hgt : ub < e) : drain ub hp lc = (hp, lc) := by
  have hne : hp ≠ [] := by
    intro h
    rw [h] at hmax
    simp at hmax
  have hlen : hp.length = (hp.length - 1) + 1 := by
    have := List.length_pos.mpr hne
    omega
  rw [drain, hlen]
  simp only [drainGo, hmax]
  rw [if_neg (by omega)]

theorem le_of_max?_eq_some {hp : List Nat} {e a : Nat} (h : hp.max? = some e)
    (ha : a ∈ hp) : a ≤ e := by
  rw [List.max?_eq_some_iff (fun a => le_refl a) (fun a b => max_choice a b)
    (fun a b c => max_le_iff)] at h
  exact h.2 a ha

/-- The sweep of `part_1` over the sorted ranges returns the least
non-blocked address, as long as some address at or above it is blocked by a
listed range (or it is `0`); the invariants quantify the heap and
`last_close` state. -/
theorem sweep_eq_least (blocked : List Range) (m : Nat)
    (hm : IsLeast {x | ¬Blocked blocked x} m)
    (hab : m = 0 ∨ ∃ x, m ≤ x ∧ Blocked blocked x) :
    ∀ (rest : List Range) (hp : List Nat) (lc : Nat),
      (∀ r ∈ rest, r ∈ blocked ∧ r.hi + 1 < 2 ^ 32) →
      List.Pairwise (fun a b => rangeLE a b = true) rest →
      (∀ p ∈ blocked, p ∈ rest ∨ p.lo ≤ m) →
      (∀ p ∈ blocked, p ∈ rest ∨ p.hi + 1 ∈ hp ∨ p.hi + 1 ≤ lc) →
      (∀ e ∈ hp, ∃ p, p ∈ blocked ∧ e = p.hi + 1 ∧ p.lo ≤ m) →
      lc ≤ m →
      (∀ x, x < maxOf hp lc → Blocked blocked x) →
      sweep rest hp lc = m := by
  intro rest
  induction rest with
  | nil =>
    intro hp lc _ _ hproc _ _ _ _
    rcases hab with rfl | ⟨x, hmx, p, hpb, hplo, hphi⟩
    · rfl
    · exfalso
      have hplo_m : p.lo ≤ m := by
        rcases hproc p hpb with h | h
        · cases h
        · exact h
      exact hm.1 ⟨p, hpb, hplo_m, by omega⟩
  | cons r rest' ih =>
    intro hp lc hsub hsort hproc hcov hheapm hlc hM
    have hrsub : r ∈ blocked := (hsub r (List.mem_cons_self r rest')).1
    have hru32 : r.hi + 1 < 2 ^ 32 := (hsub r (List.mem_cons_self r rest')).2
    have hmod : (r.hi + 1) % 2 ^ 32 = r.hi + 1 := Nat.mod_eq_of_lt hru32
    have hr_first : ∀ p ∈ rest', r.lo ≤ p.lo := by
      intro p hpmem
      have := (List.pairwise_cons.mp hsort).1 p hpmem
      simp only [rangeLE, Bool.or_eq_true, Bool.and_eq_true, decide_eq_true_eq] at this
      omega
    have hsort' := (List.pairwise_cons.mp hsort).2
    have hp_le_m : ∀ e ∈ hp, e ≤ m := by
      intro e he
      obtain ⟨p, hpb, rfl, hplo⟩ := hheapm e he
      by_contra h
      exact hm.1 ⟨p, hpb, hplo, by omega⟩
    by_cases hall : ∀ e ∈ hp, e ≤ r.lo
    · have hd : drain r.lo hp lc = ([], maxOf hp lc) := drain_all hall
      have hlc1m : maxOf hp lc ≤ m := maxOf_le hlc hp_le_m
      by_cases hdet : maxOf hp lc < r.lo
      · -- the gap check fires: show the returned value is exactly `m`
        simp only [sweep, hd, List.isEmpty_nil, true_and]
        rw [if_pos hdet]
        refine le_antisymm hlc1m (hm.2 ?_)
        rintro ⟨p, hpb, hplo, hphi⟩
        rcases hcov p hpb with hin | hhp | hlcp
        · have hlo : r.lo ≤ p.lo := by
            rcases List.mem_cons.mp hin with rfl | h
            · exact le_refl _
            · exact hr_first p h
          omega
        · have : p.hi + 1 ≤ maxOf hp lc := le_maxOf_of_mem hhp
          omega
        · have := lc_le_maxOf hp lc
          omega
      · -- heap drained but no gap: push `r.hi + 1` and continue
        simp only [sweep, hd, List.isEmpty_nil, true_and]
        rw [if_neg hdet, hmod]
        have hrm : r.lo ≤ m := by omega
        refine ih _ _ (fun q hq => hsub q (List.mem_cons_of_mem r hq)) hsort' ?_ ?_ ?_ hlc1m ?_
        · intro p hpb
          rcases hproc p hpb with hin | h
          · rcases List.mem_cons.mp hin with rfl | h'
            · exact Or.inr hrm
            · exact Or.inl h'
          · exact Or.inr h
        · intro p hpb
          rcases hcov p hpb with hin | hhp | hlcp
          · rcases List.mem_cons.mp hin with rfl | h'
            · exact Or.inr (Or.inl (List.mem_cons_self _ _))
            · exact Or.inl h'
          · exact Or.inr (Or.inr (le_maxOf_of_mem hhp))
          · exact Or.inr (Or.inr (le_trans hlcp (lc_le_maxOf hp lc)))
        · intro e he
          rcases List.mem_cons.mp he with rfl | h'
          · exact ⟨r, hrsub, rfl, hrm⟩
          · cases h'
        · intro x hx
          have hx' : x < max (r.hi + 1) (maxOf hp lc) := by
            simpa [maxOf, Nat.max_comm] using hx
          rcases Nat.lt_or_ge x (maxOf hp lc) with h | h
          · exact hM x h
          · exact ⟨r, hrsub, by omega, by omega⟩
    · -- some end exceeds `r.lo`: nothing is popped and the check cannot fire
      push_neg at hall
      obtain ⟨e, he, hegt⟩ := hall
      have hne : hp ≠ [] := fun h => by simp [h] at he
      obtain ⟨e0, hmax⟩ : ∃ e0, hp.max? = some e0 := by
        cases h : hp.max? with
        | none => exact absurd (List.max?_eq_none_iff.mp h) hne
        | some e0 => exact ⟨e0, rfl⟩
      have he0gt : r.lo < e0 := lt_of_lt_of_le hegt (le_of_max?_eq_some hmax he)
      have hd : drain r.lo hp lc = (hp, lc) := drain_gt hmax he0gt
      have hnotempty : hp.isEmpty = false := by
        cases hp with
        | nil => exact absurd rfl hne
        | cons a t => rfl
      simp only [sweep, hd, hnotempty, Bool.false_eq_true, false_and]
      rw [if_neg (by simp), hmod]
      have hrm : r.lo ≤ m := le_trans (le_of_lt hegt) (hp_le_m e he)
      refine ih _ _ (fun q hq => hsub q (List.mem_cons_of_mem r hq)) hsort' ?_ ?_ ?_ hlc ?_
      · intro p hpb
        rcases hproc p hpb with hin | h
        · rcases List.mem_cons.mp hin with rfl | h'
          · exact Or.inr hrm
          · exact Or.inl h'
        · exact Or.inr h
      · intro p hpb
        rcases hcov p hpb with hin | hhp | hlcp
        · rcases List.mem_cons.mp hin with rfl | h'
          · exact Or.inr (Or.inl (List.mem_cons_self _ _))
          · exact Or.inl h'
        · exact Or.inr (Or.inl (List.mem_cons_of_mem _ hhp))
        · exact Or.inr (Or.inr hlcp)
      · intro q hq
        rcases List.mem_cons.mp hq with rfl | h'
        · exact ⟨r, hrsub, rfl, hrm⟩
        · exact hheapm q h'
      · intro x hx
        have hx' : x < max (r.hi + 1) (maxOf hp lc) := by
          simpa [maxOf, Nat.max_comm] using hx
        rcases Nat.lt_or_ge x (maxOf hp lc) with h | h
        · exact hM x h
        · refine ⟨r, hrsub, ?_, by omega⟩
          have : e0 ≤ maxOf hp lc :=
            le_maxOf_of_mem (List.max?_mem (fun a b => max_choice a b) hmax)
          omega

end Day20

/-- C4 (counterexample): on the input `[0-2]` the claim fails: `part_1`
returns `0`, which is itself blocked, while the smallest non-blocked
address is `3`. -/
theorem claim_C4_counterexample :
    Day20.part_1 [⟨0, 2⟩] = 0 ∧ Day20.Blocked [⟨0, 2⟩] 0 ∧
    IsLeast {x | ¬Day20.Blocked [⟨0, 2⟩] x} 3 := by
  refine ⟨?_, by decide, by decide, ?_⟩
  · show Day20.sweep ([⟨0, 2⟩].mergeSort Day20.rangeLE) [] 0 = 0
    rw [List.mergeSort_singleton]
    decide
  · intro y hy
    by_contra h
    push_neg at h
    interval_cases y <;> exact hy (by decide)

/-- C4 (amended): `part_1` returns the smallest address not contained in
any blocked range whenever some address at or above that smallest
non-blocked address is blocked (equivalently: whenever the union of the
blocked ranges is not a non-empty initial segment of the address space), and
provided `range.1 + 1` does not overflow `u32` for any listed range.  When
the blocked union is a non-empty initial segment `[0, k]`, `part_1` falls
through and returns `0` instead of `k + 1`. -/
theorem claim_C4 (blocked : List Day20.Range)
    (hu32 : ∀ r ∈ blocked, r.hi + 1 < 2 ^ 32) (m : Nat)
    (hm : IsLeast {x | ¬Day20.Blocked blocked x} m)
    (hab : m = 0 ∨ ∃ x, m ≤ x ∧ Day20.Blocked blocked x) :
    Day20.part_1 blocked = m := by
  have hperm := List.mergeSort_perm blocked Day20.rangeLE
  have hmem : ∀ r, r ∈ blocked.mergeSort Day20.rangeLE ↔ r ∈ blocked :=
    fun r => hperm.mem_iff
  refine Day20.sweep_eq_least blocked m hm hab _ [] 0 ?_ ?_ ?_ ?_ ?_ ?_ ?_
  · exact fun r hr => ⟨(hmem r).mp hr, hu32 r ((hmem r).mp hr)⟩
  · exact List.sorted_mergeSort Day20.rangeLE_trans Day20.rangeLE_total blocked
  · exact fun p hpb => Or.inl ((hmem p).mpr hpb)
  · exact fun p hpb => Or.inl ((hmem p).mpr hpb)
  · intro e he
    cases he
  · exact Nat.zero_le m
  · intro x hx
    simp [Day20.maxOf] at hx

/-- Witness for C4 at the concrete input `[0-2, 5-6]`, whose smallest
non-blocked address `3` lies below the blocked address `5`. -/
theorem claim_C4_witness : Day20.part_1 [⟨0, 2⟩, ⟨5, 6⟩] = 3 := by
  refine claim_C4 [⟨0, 2⟩, ⟨5, 6⟩] (by decide) 3 ⟨by decide, ?_⟩
    (Or.inr ⟨5, by omega, by decide⟩)
  intro y hy
  by_contra h
  push_neg at h
  interval_cases y <;> exact hy (by decide)

/-! ## The shared utilities: `permute` (`src/utils.rs`) -/

namespace Utils

/-- `<[T]>::swap` on lists: exchange the elements at positions `i` and `j`.
Where `permute` uses it both positions are in bounds; out-of-bounds
positions leave the list unchanged. -/
def swapIdx (l : List α) (i j : Nat) : List α :=
  match l[i]?, l[j]? with
  | some a, some b => (l.set i b).set j a
  | _, _ => l

theorem swapIdx_length (l : List α) (i j : Nat) :
    (swapIdx l i j).length = l.length := by
  unfold swapIdx
  cases l[i]? <;> cases l[j]? <;> simp

theorem set_self (l : List α) (i : Nat) (h : i < l.length) : l.set i l[i] = l := by
  apply List.ext_getElem
  · simp
  · intro n h1 h2
    rcases eq_or_ne i n with rfl | hne
    · simp
    · rw [List.getElem_set_of_ne hne]

theorem get_cons_set_perm {t : List α} {k : Nat} (hk : k < t.length) (x : α) :
    (t[k] :: t.set k x).Perm (x :: t) := by
  induction t generalizing k with
  | nil => cases hk
  | cons y t' ih =>
    cases k with
    | zero => simpa using List.Perm.swap x y t'
    | succ k' =>
      have hk' : k' < t'.length := by simpa using hk
      have h1 : (y :: t')[k' + 1] :: (y :: t').set (k' + 1) x
          = t'[k'] :: y :: t'.set k' x := by simp
      rw [h1]
      exact (List.Perm.swap y t'[k'] _).trans
        (((ih hk').cons y).trans (List.Perm.swap x y t'))

theorem swapIdx_perm (l : List α) (i j : Nat) : (swapIdx l i j).Perm l := by
  induction l generalizing i j with
  | nil => simp [swapIdx]
  | cons x t ih =>
    cases i with
    | zero =>
      cases j with
      | zero => simp [swapIdx]
      | succ j' =>
        cases hj : t[j']? with
        | none => simp [swapIdx, hj]
        | some b =>
          have hjlt : j' < t.length := by
            by_contra h
            rw [List.getElem?_eq_none (by omega)] at hj
            cases hj
          have hb : t[j'] = b := by
            have := List.getElem?_eq_getElem hjlt
            rw [hj] at this
            exact (Option.some.injEq _ _).mp this.symm
          subst hb
          simpa [swapIdx, hj] using get_cons_set_perm hjlt x
    | succ i' =>
      cases j with
      | zero =>
        cases hi : t[i']? with
        | none => simp [swapIdx, hi]
        | some a =>
          have hilt : i' < t.length := by
            by_contra h
            rw [List.getElem?_eq_none (by omega)] at hi
            cases hi
          have ha : t[i'] = a := by
            have := List.getElem?_eq_getElem hilt
            rw [hi] at this
            exact (Option.some.injEq _ _).mp this.symm
          subst ha
          simpa [swapIdx, hi] using get_cons_set_perm hilt x
      | succ j' =>
        cases hi : t[i']? with
        | none => simp [swapIdx, hi]
        | some a =>
          cases hj : t[j']? with
          | none => simp [swapIdx, hi, hj]
          | some b =>
            have : swapIdx (x :: t) (i' + 1) (j' + 1) = x :: swapIdx t i' j' := by
              simp [swapIdx, hi, hj]
            rw [this]
            exact (ih i' j').cons x

theorem swapIdx_swapIdx (l : List α) (i j : Nat) (hi : i < l.length)
    (hj : j < l.length) : swapIdx (swapIdx l i j) i j = l := by
  have hget : ∀ (m : List α) (k : Nat) (hk : k < m.length), m[k]? = some m[k] :=
    fun m k hk => List.getElem?_eq_getElem hk
  rcases eq_or_ne i j with rfl | hij
  · have h0 : swapIdx l i i = l := by
      simp only [swapIdx, hget l i hi]
      rw [List.set_set]
      exact set_self l i hi
    rw [h0, h0]
  · have h1 : swapIdx l i j = (l.set i l[j]).set j l[i] := by
      simp only [swapIdx, hget l i hi, hget l j hj]
    have hi' : i < ((l.set i l[j]).set j l[i]).length := by
      rw [List.length_set, List.length_set]
      exact hi
    have hj' : j < ((l.set i l[j]).set j l[i]).length := by
      rw [List.length_set, List.length_set]
      exact hj
    have hvi : ((l.set i l[j]).set j l[i])[i] = l[j] := by
      rw [List.getElem_set_of_ne (Ne.symm hij), List.getElem_set_self]
    have hvj : ((l.set i l[j]).set j l[i])[j] = l[i] := by
      rw [List.getElem_set_self]
    rw [h1]
    simp only [swapIdx, hget _ i hi', hget _ j hj', hvi, hvj]
    have hstep : (((l.set i l[j]).set j l[i]).set i l[i]).set j l[j] = l := by
      rw [List.set_comm _ _ _ (Ne.symm hij), List.set_set, List.set_set,
        set_self l i hi]
      exact set_self l j hj
    exact hstep

mutual

/-- `inner` from `permute` in `utils.rs`.  Instead of invoking a callback,
the embedding returns the final state of the slice together with the trace
of slices the callback would have been invoked on, in order.  The length of
the slice never changes; the result carries that fact so that the loop
below is seen to terminate. -/
def inner (l : List α) (index : Nat) :
    {pr : List α × List (List α) // pr.1.length = l.length} :=
  if index = l.length then ⟨(l, [l]), rfl⟩
  else
    let q := innerLoop l index index (le_refl index)
    ⟨q.val, q.property⟩
termination_by (l.length - index, l.length + 1)
decreasing_by
  exact Prod.Lex.right _ (by omega)

/-- The `for swap_with in index..items.len()` loop inside `inner`; the loop
variable `sw` starts at `index` and never drops below it, which the proof
parameter records. -/
def innerLoop (l : List α) (index sw : Nat) (hix : index ≤ sw) :
    {pr : List α × List (List α) // pr.1.length = l.length} :=
  if h : sw < l.length then
    let l1 := swapIdx l index sw
    have h1 : l1.length = l.length := swapIdx_length l index sw
    let p := inner l1 (index + 1)
    let l3 := swapIdx p.val.1 index sw
    have h3 : l3.length = l.length := by
      show (swapIdx p.val.1 index sw).length = l.length
      rw [swapIdx_length, p.property, swapIdx_length]
    let q := innerLoop l3 index (sw + 1) (le_trans hix (Nat.le_succ sw))
    ⟨(q.val.1, p.val.2 ++ q.val.2), by rw [q.property, h3]⟩
  else ⟨(l, []), rfl⟩
termination_by (l.length - index, l.length - sw)
decreasing_by
  · rw [h1]
    exact Prod.Lex.left _ _ (by omega)
  · rw [h3]
    exact Prod.Lex.right _ (by omega)

end

/-- `permute` from `utils.rs` (trace-returning embedding, see `inner`). -/
def permute (l : List α) : List α × List (List α) := (inner l 0).val

/-- Full characterisation of `inner`: it restores the slice, fires the
callback `(l.length - index)!` times, and every callback argument is a
permutation of the slice. -/
theorem inner_spec (d : Nat) : ∀ (l : List α) (index : Nat),
    l.length - index = d → index ≤ l.length →
    (inner l index).val.1 = l ∧
    (inner l index).val.2.length = Nat.factorial (l.length - index) ∧
    ∀ c ∈ (inner l index).val.2, c.Perm l := by
  induction d using Nat.strong_induction_on with
  | _ d ih =>
    intro l index hd hle
    by_cases hidx : index = l.length
    · rw [inner, if_pos hidx, hidx]
      refine ⟨rfl, by simp [Nat.factorial], ?_⟩
      intro c hc
      rcases List.mem_singleton.mp hc with rfl
      exact List.Perm.refl _
    · have hlt : index < l.length := lt_of_le_of_ne hle hidx
      have hdpos : 0 < d := by omega
      have hd1 : l.length - (index + 1) < d := by omega
      have loop_spec : ∀ (k : Nat) (l' : List α) (sw : Nat) (hix : index ≤ sw),
          l'.length = l.length → l'.length - sw = k →
          (innerLoop l' index sw hix).val.1 = l' ∧
          (innerLoop l' index sw hix).val.2.length
            = (l'.length - sw) * Nat.factorial (l.length - (index + 1)) ∧
          ∀ c ∈ (innerLoop l' index sw hix).val.2, c.Perm l' := by
        intro k
        induction k with
        | zero =>
          intro l' sw hix hlen hk
          have hsw : ¬sw < l'.length := by omega
          rw [innerLoop, dif_neg hsw]
          refine ⟨rfl, ?_, ?_⟩
          · show (0 : Nat) = (l'.length - sw) * Nat.factorial (l.length - (index + 1))
            rw [hk]
            simp
          · intro c hc
            exact absurd hc (by simp)
        | succ k ihk =>
          intro l' sw hix hlen hk
          have hsw : sw < l'.length := by omega
          have hinner := ih (l.length - (index + 1)) hd1 (swapIdx l' index sw)
            (index + 1) (by rw [swapIdx_length]; omega)
            (by rw [swapIdx_length]; omega)
          have hl3 : swapIdx (inner (swapIdx l' index sw) (index + 1)).val.1
              index sw = l' := by
            rw [hinner.1]
            exact swapIdx_swapIdx l' index sw (by omega) hsw
          have hloop := ihk l' (sw + 1) (le_trans hix (Nat.le_succ sw)) hlen
            (by omega)
          have hval : (innerLoop l' index sw hix).val =
              ((innerLoop (swapIdx (inner (swapIdx l' index sw) (index + 1)).val.1
                    index sw) index (sw + 1) (le_trans hix (Nat.le_succ sw))).val.1,
               (inner (swapIdx l' index sw) (index + 1)).val.2 ++
                 (innerLoop (swapIdx (inner (swapIdx l' index sw) (index + 1)).val.1
                    index sw) index (sw + 1) (le_trans hix (Nat.le_succ sw))).val.2) := by
            rw [innerLoop, dif_pos hsw]
          rw [hval, hl3]
          refine ⟨hloop.1, ?_, ?_⟩
          · show ((inner (swapIdx l' index sw) (index + 1)).val.2 ++
                (innerLoop l' index (sw + 1) (le_trans hix (Nat.le_succ sw))).val.2).length
              = (l'.length - sw) * Nat.factorial (l.length - (index + 1))
            rw [List.length_append, hinner.2.1, hloop.2.1, swapIdx_length, hlen]
            have h1 : l.length - sw = (l.length - (sw + 1)) + 1 := by omega
            rw [h1]
            ring
          · intro c hc
            rcases List.mem_append.mp hc with hc1 | hc2
            · exact ((hinner.2.2 c hc1).trans (swapIdx_perm l' index sw))
            · exact hloop.2.2 c hc2
      rw [inner, if_neg hidx]
      have h := loop_spec (l.length - index) l index (le_refl index) rfl rfl
      refine ⟨h.1, ?_, h.2.2⟩
      rw [h.2.1]
      have h1 : l.length - index = (l.length - (index + 1)) + 1 := by omega
      rw [h1, Nat.factorial_succ]

end Utils

/-- C6: for every slice, `permute` invokes the callback exactly
`n!` times for `n` the slice length, every invocation receives a
rearrangement (permutation) of the original slice's elements, and when
`permute` returns, the slice is in its original order again. -/
theorem claim_C6 {α : Type u_1} (l : List α) :
    (Utils.permute l).1 = l ∧
    (Utils.permute l).2.length = Nat.factorial l.length ∧
    ∀ c ∈ (Utils.permute l).2, c.Perm l := by
  have h := Utils.inner_spec l.length l 0 (by omega) (Nat.zero_le _)
  simpa [Utils.permute] using h

/-- Witness for C6 at the concrete slice `[0]`. -/
theorem claim_C6_witness :
    (Utils.permute [0]).1 = [0] ∧
    (Utils.permute [0]).2.length = Nat.factorial 1 ∧
    ([0] : List Nat).Perm [0] :=
  ⟨(claim_C6 [0]).1, (claim_C6 [0]).2.1,
    (claim_C6 [0]).2.2 [0]
      (by simp [Utils.permute, Utils.inner, Utils.innerLoop, Utils.swapIdx])⟩

/-! ## Day 10: the bot factory (`src/day_10.rs`) -/

namespace Day10

/-- `enum Destination` from `day_10.rs`. -/
inductive Destination where
  | bot (i : Nat)
  | output (i : Nat)
deriving DecidableEq, Repr

/-- `struct Bot` from `day_10.rs`. -/
structure Bot where
  id : Nat
  low_to : Destination
  high_to : Destination
deriving DecidableEq, Repr

/-- `struct Seed` from `day_10.rs`. -/
structure Seed where
  value : Nat
  value_to : Destination
deriving DecidableEq, Repr

/-- `enum Instruction` from `day_10.rs`. -/
inductive Instruction where
  | seed (s : Seed)
  | bot (b : Bot)
deriving DecidableEq, Repr

/-- `enum TwoHeap` from `day_10.rs`, specialised to `u32` chip values. -/
inductive TwoHeap where
  | empty
  | single (x : Nat)
  | pair (a b : Nat)
deriving DecidableEq, Repr

/-- `TwoHeap::push`; `none` models the `HeapError::HeapFull` error. -/
def TwoHeap.push : TwoHeap → Nat → Option TwoHeap
  | .empty, v => some (.single v)
  | .single x, v => if x ≤ v then some (.pair x v) else some (.pair v x)
  | .pair _ _, _ => none

/-- `TwoHeap::is_full`. -/
def TwoHeap.is_full : TwoHeap → Bool
  | .pair _ _ => true
  | _ => false

/-- The ordering invariant of a two-element inventory. -/
def TwoHeap.ordered : TwoHeap → Prop
  | .pair a b => a ≤ b
  | _ => True

/-- `struct Factory` from `day_10.rs` (the `events` deque as a list). -/
structure Factory where
  bot_inventory : List TwoHeap
  bots : List (Option Bot)
  outputs : List TwoHeap
  events : List Nat
deriving DecidableEq, Repr

/-- The `count_dest!` macro body of `count_bots_and_outputs`. -/
def countDest (d : Destination) (acc : Nat × Nat) : Nat × Nat :=
  match d with
  | .bot ix => (max acc.1 (ix + 1), acc.2)
  | .output ix => (acc.1, max acc.2 (ix + 1))

/-- `count_bots_and_outputs` from `day_10.rs`. -/
def count_bots_and_outputs (instructions : List Instruction) : Nat × Nat :=
  instructions.foldl
    (fun acc instr =>
      match instr with
      | .seed s => countDest s.value_to acc
      | .bot b => countDest b.high_to (countDest b.low_to (max acc.1 (b.id + 1), acc.2)))
    (0, 0)

/-- `heaps[i].push(v)` on a vector of heaps: `none` on an out-of-bounds
index (a Rust panic) or a full heap (`HeapFull`). -/
def pushAt (l : List TwoHeap) (i : Nat) (v : Nat) : Option (List TwoHeap) :=
  match l[i]? with
  | none => none
  | some th =>
    match th.push v with
    | none => none
    | some th' => some (l.set i th')

/-- `bots[b.id] = Some(b)`; `none` on an out-of-bounds index. -/
def setBotAt (l : List (Option Bot)) (i : Nat) (b : Bot) : Option (List (Option Bot)) :=
  if i < l.length then some (l.set i (some b)) else none

/-- The seeding loop of `Factory::new`. -/
def seedFactory : List Instruction → Factory → Option Factory
  | [], f => some f
  | instr :: rest, f =>
    match instr with
    | .seed s =>
      match s.value_to with
      | .bot ix =>
        match pushAt f.bot_inventory ix s.value with
        | none => none
        | some inv => seedFactory rest { f with bot_inventory := inv }
      | .output ix =>
        match pushAt f.outputs ix s.value with
        | none => none
        | some outs => seedFactory rest { f with outputs := outs }
    | .bot b =>
      match setBotAt f.bots b.id b with
      | none => none
      | some bots => seedFactory rest { f with bots := bots }

/-- `Factory::new` from `day_10.rs`. -/
def Factory.new (instructions : List Instruction) : Option Factory :=
  let counts := count_bots_and_outputs instructions
  seedFactory instructions
    { bot_inventory := List.replicate counts.1 .empty
      bots := List.replicate counts.1 none
      outputs := List.replicate counts.2 .empty
      events := [] }

/-- The event-queue initialisation at the top of `Factory::simulate`. -/
def initEvents (f : Factory) : Factory :=
  { f with
    events := ((f.bot_inventory.enum.filter fun p => p.2.is_full).map fun p => p.1) }

/-- One `send_value` call from `Factory::simulate`. -/
def send_value (f : Factory) (dest : Destination) (value : Nat) : Option Factory :=
  match dest with
  | .bot ix =>
    match pushAt f.bot_inventory ix value with
    | none => none
    | some inv =>
      if ((inv.getD ix .empty).is_full : Bool) then
        some { f with bot_inventory := inv, events := f.events ++ [ix] }
      else some { f with bot_inventory := inv }
  | .output ix =>
    match pushAt f.outputs ix value with
    | none => none
    | some outs => some { f with outputs := outs }

/-- A record of one processed event of `Factory::simulate`: the bot, the
pair it held, and where each half was sent. -/
structure SendRec where
  bot : Nat
  low : Nat
  high : Nat
  low_to : Destination
  high_to : Destination
deriving DecidableEq, Repr

/-- The `while let Some(bot_ix) = self.events.pop_front()` loop of
`Factory::simulate`, instrumented with a trace of processed events; `none`
on any error (`UnpreparedBot`, `HeapFull`, unset bot, out-of-bounds index)
or when the fuel runs out. -/
def simulateGo : Nat → Factory → List SendRec → Option (Factory × List SendRec)
  | 0, f, tr =>
    match f.events with
    | [] => some (f, tr)
    | _ :: _ => none
  | fuel + 1, f, tr =>
    match f.events with
    | [] => some (f, tr)
    | bot_ix :: rest =>
      let f0 : Factory := { f with events := rest }
      match f0.bot_inventory[bot_ix]? with
      | none => none
      | some inv =>
        match inv with
        | .pair low high =>
          match f0.bots[bot_ix]? with
          | none => none
          | some none => none
          | some (some b) =>
            match send_value f0 b.low_to low with
            | none => none
            | some f1 =>
              match send_value f1 b.high_to high with
              | none => none
              | some f2 =>
                simulateGo fuel f2 (tr ++ [⟨bot_ix, low, high, b.low_to, b.high_to⟩])
        | _ => none

/-- `Factory::simulate` from `day_10.rs` (with fuel and a trace). -/
def simulate (fuel : Nat) (f : Factory) : Option (Factory × List SendRec) :=
  simulateGo fuel (initEvents f) []

/-- The ordering invariant over every inventory of the factory. -/
def Factory.ordered (f : Factory) : Prop :=
  (∀ th ∈ f.bot_inventory, th.ordered) ∧ (∀ th ∈ f.outputs, th.ordered)

theorem push_ordered {th th' : TwoHeap} {v : Nat} (h : th.push v = some th') :
    th'.ordered := by
  cases th with
  | empty =>
    simp only [TwoHeap.push] at h
    cases h
    trivial
  | single x =>
    simp only [TwoHeap.push] at h
    by_cases hx : x ≤ v
    · rw [if_pos hx] at h
      cases h
      exact hx
    · rw [if_neg hx] at h
      cases h
      exact le_of_not_le hx
  | pair a b => cases h

theorem pushAt_ordered {l l' : List TwoHeap} {i v : Nat}
    (h : pushAt l i v = some l') (hl : ∀ th ∈ l, th.ordered) :
    ∀ th ∈ l', th.ordered := by
  unfold pushAt at h
  cases hg : l[i]? with
  | none => simp only [hg] at h; cases h
  | some th0 =>
    simp only [hg] at h
    cases hp : th0.push v with
    | none => simp only [hp] at h; cases h
    | some th1 =>
      simp only [hp, Option.some.injEq] at h
      subst h
      intro th hth
      rcases List.mem_or_eq_of_mem_set hth with hmem | rfl
      · exact hl th hmem
      · exact push_ordered hp

theorem seedFactory_ordered :
    ∀ (instrs : List Instruction) (f f' : Factory),
      seedFactory instrs f = some f' → Factory.ordered f → Factory.ordered f' := by
  intro instrs
  induction instrs with
  | nil =>
    intro f f' h hf
    cases h
    exact hf
  | cons instr rest ih =>
    intro f f' h hf
    cases instr with
    | seed s =>
      cases hd : s.value_to with
      | bot ix =>
        simp only [seedFactory, hd] at h
        cases hp : pushAt f.bot_inventory ix s.value with
        | none => simp only [hp] at h; cases h
        | some inv =>
          simp only [hp] at h
          exact ih _ _ h ⟨pushAt_ordered hp hf.1, hf.2⟩
      | output ix =>
        simp only [seedFactory, hd] at h
        cases hp : pushAt f.outputs ix s.value with
        | none => simp only [hp] at h; cases h
        | some outs =>
          simp only [hp] at h
          exact ih _ _ h ⟨hf.1, pushAt_ordered hp hf.2⟩
    | bot b =>
      simp only [seedFactory] at h
      cases hs : setBotAt f.bots b.id b with
      | none => simp only [hs] at h; cases h
      | some bots =>
        simp only [hs] at h
        exact ih _ _ h hf

theorem new_ordered {instrs : List Instruction} {f : Factory}
    (h : Factory.new instrs = some f) : Factory.ordered f := by
  refine seedFactory_ordered instrs _ f h ⟨?_, ?_⟩ <;>
    intro th hth <;> rw [List.eq_of_mem_replicate hth] <;> trivial

theorem send_value_ordered {f f' : Factory} {dest : Destination} {v : Nat}
    (h : send_value f dest v = some f') (hf : Factory.ordered f) :
    Factory.ordered f' := by
  cases dest with
  | bot ix =>
    simp only [send_value] at h
    cases hp : pushAt f.bot_inventory ix v with
    | none => simp only [hp] at h; cases h
    | some inv =>
      simp only [hp] at h
      by_cases hfull : ((inv.getD ix .empty).is_full : Bool)
      · rw [if_pos hfull] at h
        cases h
        exact ⟨pushAt_ordered hp hf.1, hf.2⟩
      · rw [if_neg hfull] at h
        cases h
        exact ⟨pushAt_ordered hp hf.1, hf.2⟩
  | output ix =>
    simp only [send_value] at h
    cases hp : pushAt f.outputs ix v with
    | none => simp only [hp] at h; cases h
    | some outs =>
      simp only [hp] at h
      cases h
      exact ⟨hf.1, pushAt_ordered hp hf.2⟩

theorem simulateGo_spec :
    ∀ (fuel : Nat) (f : Factory) (tr : List SendRec) (f' : Factory)
      (tr' : List SendRec),
      simulateGo fuel f tr = some (f', tr') → Factory.ordered f →
      (∀ r ∈ tr, r.low ≤ r.high) →
      Factory.ordered f' ∧ ∀ r ∈ tr', r.low ≤ r.high := by
  intro fuel
  induction fuel with
  | zero =>
    intro f tr f' tr' h hf htr
    cases hev : f.events with
    | nil =>
      simp only [simulateGo, hev, Option.some.injEq, Prod.mk.injEq] at h
      rw [← h.1, ← h.2]
      exact ⟨hf, htr⟩
    | cons a b => simp only [simulateGo, hev] at h; cases h
  | succ fuel ih =>
    intro f tr f' tr' h hf htr
    cases hev : f.events with
    | nil =>
      simp only [simulateGo, hev, Option.some.injEq, Prod.mk.injEq] at h
      rw [← h.1, ← h.2]
      exact ⟨hf, htr⟩
    | cons bot_ix rest =>
      simp only [simulateGo, hev] at h
      have hf0o : Factory.ordered { f with events := rest } := hf
      cases hg : ({ f with events := rest } : Factory).bot_inventory[bot_ix]? with
      | none => simp only [hg] at h; cases h
      | some inv =>
        simp only [hg] at h
        cases inv with
        | empty => simp at h
        | single x => simp at h
        | pair low high =>
          have hlh : low ≤ high :=
            hf0o.1 (.pair low high) (List.getElem?_mem hg)
          cases hb : ({ f with events := rest } : Factory).bots[bot_ix]? with
          | none => simp only [hb] at h; cases h
          | some ob =>
            simp only [hb] at h
            cases ob with
            | none => simp at h
            | some b =>
              cases h1 : send_value { f with events := rest } b.low_to low with
              | none => simp only [h1] at h; cases h
              | some f1 =>
                simp only [h1] at h
                cases h2 : send_value f1 b.high_to high with
                | none => simp only [h2] at h; cases h
                | some f2 =>
                  simp only [h2] at h
                  refine ih f2 _ f' tr' h
                    (send_value_ordered h2 (send_value_ordered h1 hf0o)) ?_
                  intro r hr
                  rcases List.mem_append.mp hr with hr1 | hr2
                  · exact htr r hr1
                  · rcases List.mem_singleton.mp hr2 with rfl
                    exact hlh

/-- C7: the ordering invariant `Pair(a, b) → a ≤ b` holds for every
inventory built by `Factory::new` and throughout `simulate`, and every
event that `simulate` processes for a bot holding `x` and `y` sends
`min x y` to the bot's low destination and `max x y` to its high
destination (the trace records, per processed bot, the pair held and the
two destinations used, in the order the sends happen). -/
theorem claim_C7 (instructions : List Instruction) (f : Factory)
    (hnew : Factory.new instructions = some f) (fuel : Nat)
    (f' : Factory) (trace : List SendRec)
    (hsim : simulate fuel f = some (f', trace)) :
    Factory.ordered f ∧ Factory.ordered f' ∧
    ∀ r ∈ trace, r.low = min r.low r.high ∧ r.high = max r.low r.high := by
  have hford : Factory.ordered f := new_ordered hnew
  have hinit : Factory.ordered (initEvents f) := hford
  have h := simulateGo_spec fuel (initEvents f) [] f' trace hsim hinit
    (fun r hr => by cases hr)
  refine ⟨hford, h.1, ?_⟩
  intro r hr
  have := h.2 r hr
  omega

/-- Witness for C7 at the concrete factory with seeds 2 and 5 fed to bot 0,
which sends its low chip to output 0 and its high chip to output 1. -/
theorem claim_C7_witness : (2 : Nat) = min 2 5 ∧ (5 : Nat) = max 2 5 :=
  (claim_C7
    [.seed ⟨2, .bot 0⟩, .seed ⟨5, .bot 0⟩, .bot ⟨0, .output 0, .output 1⟩]
    ⟨[.pair 2 5], [some ⟨0, .output 0, .output 1⟩], [.empty, .empty], []⟩
    (by decide) 2
    ⟨[.pair 2 5], [some ⟨0, .output 0, .output 1⟩], [.single 2, .single 5], []⟩
    [⟨0, 2, 5, .output 0, .output 1⟩]
    (by decide)).2.2
    ⟨0, 2, 5, .output 0, .output 1⟩ (by decide)

end Day10

/-! ## Day 5: the MD5 brute-force search (`src/day_05.rs`)

The MD5 digest comes from an external crate, so the embedding abstracts it
as an oracle `digest : Nat → List Nat` giving the digest bytes of
`input ++ decimal(x)`.  Rayon's `par_extend` over an
`IndexedParallelIterator` appends the produced items in the iterator's
index order, so the window loop of `part_1` is embedded as the in-order
concatenation of each window's hits. -/

namespace Day05

/-- The `HEX` lookup table of `day_05.rs`, as byte values. -/
def HEX : List Nat :=
  [48, 49, 50, 51, 52, 53, 54, 55, 56, 57, 97, 98, 99, 100, 101, 102]

/-- One candidate check of the `map_init` closure of `part_1`: a hit is
produced when the digest starts with five zero hex digits (two zero bytes
and a zero high nibble); its value is the sixth hex digit. -/
def hit (digest : Nat → List Nat) (x : Nat) : Option Nat :=
  match digest x with
  | 0 :: 0 :: b :: _ => if b / 16 = 0 then some (HEX.getD (b % 16) 0) else none
  | _ => none

/-- The `while res.len() < 8` window loop of `part_1`: each pass appends,
in index order, the hits of the window `[start, start + window)`, then
doubles the window; at the end the result is truncated to eight digits.
`fuel` bounds the iterations of the unbounded `while` loop. -/
def part1Go (digest : Nat → List Nat) :
    Nat → List Nat → Nat → Nat → Option (List Nat)
  | fuel, res, start, window =>
    if 8 ≤ res.length then some (res.take 8)
    else
      match fuel with
      | 0 => none
      | fuel + 1 =>
        part1Go digest fuel
          (res ++ (List.range' start window).filterMap (hit digest))
          (start + window) (window * 2)

/-- `part_1` from `day_05.rs` (digest-oracle parameterised, fuelled). -/
def part_1 (digest : Nat → List Nat) (fuel : Nat) : Option (List Nat) :=
  part1Go digest fuel [] 1 256

/-- Modelled from the spec: the sequential reference search — try
`i = 1, 2, 3, …` in order, keep the sixth hex digit of every digest that
starts with five zero hex digits, and concatenate the first eight such
digits in increasing order of `i`. -/
def seqSearch (digest : Nat → List Nat) (bound : Nat) : List Nat :=
  ((List.range' 1 bound).filterMap (hit digest)).take 8

theorem hits_split (digest : Nat → List Nat) {a b : Nat} (hab : a ≤ b) :
    (List.range' 1 b).filterMap (hit digest)
      = (List.range' 1 a).filterMap (hit digest)
        ++ (List.range' (1 + a) (b - a)).filterMap (hit digest) := by
  have h := List.range'_append 1 a (b - a) 1
  rw [one_mul] at h
  have h2 : b - a + a = b := by omega
  rw [h2] at h
  rw [← List.filterMap_append, h]

theorem hits_take_eight (digest : Nat → List Nat) {a b : Nat} (hab : a ≤ b)
    (ha : 8 ≤ ((List.range' 1 a).filterMap (hit digest)).length) :
    ((List.range' 1 b).filterMap (hit digest)).take 8
      = ((List.range' 1 a).filterMap (hit digest)).take 8 := by
  rw [hits_split digest hab]
  exact List.take_append_of_le_length ha

theorem part1Go_eq (digest : Nat → List Nat) (N : Nat)
    (h8 : 8 ≤ ((List.range' 1 N).filterMap (hit digest)).length) :
    ∀ (fuel s window : Nat), 1 ≤ window → N ≤ s + fuel →
      part1Go digest fuel ((List.range' 1 s).filterMap (hit digest))
        (s + 1) window
        = some (((List.range' 1 N).filterMap (hit digest)).take 8) := by
  intro fuel
  induction fuel with
  | zero =>
    intro s window hw hNs
    have hs : N ≤ s := by omega
    have hlen : 8 ≤ ((List.range' 1 s).filterMap (hit digest)).length := by
      rw [hits_split digest hs, List.length_append]
      omega
    rw [part1Go, if_pos hlen, hits_take_eight digest hs h8]
  | succ fuel ih =>
    intro s window hw hNs
    by_cases hlen : 8 ≤ ((List.range' 1 s).filterMap (hit digest)).length
    · rcases Nat.le_total N s with hs | hs
      · rw [part1Go, if_pos hlen, hits_take_eight digest hs h8]
      · rw [part1Go, if_pos hlen, ← hits_take_eight digest hs hlen]
    · rw [part1Go, if_neg hlen]
      have hjoin : (List.range' 1 s).filterMap (hit digest)
            ++ (List.range' (s + 1) window).filterMap (hit digest)
          = (List.range' 1 (s + window)).filterMap (hit digest) := by
        have h1 : (1 : Nat) + s = s + 1 := by omega
        have h2 : s + window - s = window := by omega
        rw [hits_split digest (Nat.le_add_right s window), h1, h2]
      rw [hjoin]
      have := ih (s + window) (window * 2) (by omega) (by omega)
      have harg : s + window + 1 = s + 1 + window := by omega
      rw [harg] at this
      exact this

/-- C5: the windowed, data-parallel `part_1` returns exactly the result of
the sequential reference search (first eight qualifying hex digits in
increasing index order), for every digest oracle, provided the first eight
hits exist by index `N` and the loop is given at least `N` rounds of fuel.
The parallel iteration never changes the returned password. -/
theorem claim_C5 (digest : Nat → List Nat) (N : Nat)
    (h8 : 8 ≤ ((List.range' 1 N).filterMap (hit digest)).length) :
    part_1 digest N = some (seqSearch digest N) := by
  have h := part1Go_eq digest N h8 N 0 256 (by omega) (by omega)
  simpa [part_1, seqSearch] using h

/-- Witness for C5 with the constant digest oracle `[0, 0, 0]` (every
index is a hit with digit `0`, byte 48) and `N = 8`. -/
theorem claim_C5_witness :
    part_1 (fun _ => [0, 0, 0]) 8 = some (seqSearch (fun _ => [0, 0, 0]) 8) :=
  claim_C5 (fun _ => [0, 0, 0]) 8 (by decide)

end Day05

/-! ## Day 19: the Josephus problems (`src/day_19.rs`) -/

namespace Day19

/-- `u64::leading_zeros`. -/
def leadingZeros64 (n : Nat) : Nat :=
  if n = 0 then 64 else 64 - (Nat.log2 n + 1)

/-- `part_1_jospehus` from `day_19.rs`:
`1 << (63 - count.leading_zeros())` is the highest set bit. -/
def part_1_jospehus (count : Nat) : Nat :=
  let highest_one := 2 ^ (63 - leadingZeros64 count)
  (count - highest_one) * 2 + 1

/-- The `while let Some(first) = queue.pop_front()` loop of
`part_1_deques`: take the front, eliminate the next, re-queue the front;
`none` models the `unreachable!` panic on an empty ring. -/
def josephusLoop : List α → Option α
  | [] => none
  | [a] => some a
  | a :: _ :: rest => josephusLoop (rest ++ [a])
termination_by l => l.length
decreasing_by
  simp

/-- `part_1_deques` from `day_19.rs`. -/
def part_1_deques (count : Nat) : Option Nat :=
  josephusLoop (List.range' 1 count)

/-- The `while let Some(next) = h.checked_mul(3) && next < count` loop of
`part_2_josephus`.  `fuel` (instantiated with `count`) bounds the loop; the
`checked_mul` overflow exit coincides with the `next < count` exit on a
`u64`, since `h` only triples while `3*h < count`. -/
def highestPow3Go (count : Nat) : Nat → Nat → Nat
  | 0, h => h
  | fuel + 1, h => if h * 3 < count then highestPow3Go count fuel (h * 3) else h

/-- `part_2_josephus` from `day_19.rs` (`saturating_sub` is `Nat`
subtraction; the unchecked `u64` product `2 * highest_power_of_3` and
the final `u64` sum wrap at `2 ^ 64`). -/
def part_2_josephus (count : Nat) : Nat :=
  let highest_power_of_3 := highestPow3Go count count 1
  ((count - highest_power_of_3)
    + (count - 2 * highest_power_of_3 % 2 ^ 64)) % 2 ^ 64

/-- The `while let Some(first) = ahead.pop_front()` loop of
`part_2_deques`, with the across-the-circle elimination and rebalancing of
the two deques. -/
def p2loop : List Nat → List Nat → Nat
  | [], behind => behind.headD 0
  | first :: ahead, behind =>
    match behind with
    | [] => first
    | _ :: brest =>
      if ahead.length + 1 < (brest ++ [first]).length then
        match hb : brest ++ [first] with
        | [] => 0
        | rot :: btail => p2loop (ahead ++ [rot]) btail
      else p2loop ahead (brest ++ [first])
termination_by ahead behind => ahead.length + behind.length
decreasing_by
  · have hlen := congrArg List.length hb
    simp at hlen ⊢
    omega
  · simp

/-- `part_2_deques` from `day_19.rs`: `split_off(len / 2)` keeps the first
half in `ahead` and moves the rest to `behind`. -/
def part_2_deques (count : Nat) : Nat :=
  let all := List.range' 1 count
  p2loop (all.take (count / 2)) (all.drop (count / 2))

/-- Every second element of a list, starting with the first. -/
def everySecond : List α → List α
  | [] => []
  | [a] => [a]
  | a :: _ :: rest => a :: everySecond rest

theorem josephusLoop_step (a b : α) (rest : List α) :
    josephusLoop (a :: b :: rest) = josephusLoop (rest ++ [a]) := by
  rw [josephusLoop]

/-- Eliminating `k` adjacent pairs from the front of the ring keeps the
survivors of the consumed prefix (every second element) queued behind the
rest. -/
theorem josephusLoop_pairs :
    ∀ (k : Nat) (pre post : List α), pre.length = 2 * k →
      josephusLoop (pre ++ post) = josephusLoop (post ++ everySecond pre) := by
  intro k
  induction k with
  | zero =>
    intro pre post h
    have : pre = [] := List.length_eq_zero.mp (by omega)
    subst this
    simp [everySecond]
  | succ k ih =>
    intro pre post h
    match pre with
    | [] => simp at h
    | [a] => simp at h; omega
    | x1 :: x2 :: pre' =>
      have hlen : pre'.length = 2 * k := by
        simp at h
        omega
      show josephusLoop (x1 :: x2 :: (pre' ++ post)) = _
      rw [josephusLoop_step, List.append_assoc, ih pre' (post ++ [x1]) hlen,
        List.append_assoc]
      rfl

theorem josephusLoop_map (f : α → β) :
    ∀ (n : Nat) (l : List α), l.length = n →
      josephusLoop (l.map f) = (josephusLoop l).map f := by
  intro n
  induction n using Nat.strong_induction_on with
  | _ n ih =>
    intro l hl
    match l with
    | [] => simp [josephusLoop]
    | [a] => simp [josephusLoop]
    | a :: b :: rest =>
      rw [List.map_cons, List.map_cons, josephusLoop_step, josephusLoop_step,
        show rest.map f ++ [f a] = (rest ++ [a]).map f by simp]
      exact ih (rest.length + 1) (by simp at hl; omega) (rest ++ [a]) (by simp)

theorem everySecond_range'_even :
    ∀ (m s : Nat), everySecond (List.range' s (2 * m)) = List.range' s m 2 := by
  intro m
  induction m with
  | zero => intro s; rfl
  | succ m ih =>
    intro s
    have h2 : 2 * (m + 1) = (2 * m) + 1 + 1 := by omega
    rw [h2, List.range'_succ, List.range'_succ, List.range'_succ]
    show s :: everySecond (List.range' (s + 1 + 1) (2 * m)) = _
    rw [ih (s + 1 + 1)]

theorem range'_two_odds :
    ∀ (m : Nat), List.range' 1 m 2 = (List.range' 1 m).map fun x => 2 * x - 1 := by
  intro m
  induction m with
  | zero => rfl
  | succ m ih =>
    rw [List.range'_concat, List.range'_concat, List.map_append, ← ih]
    congr 1
    simp
    omega

theorem range'_two_odds3 :
    ∀ (m : Nat), List.range' 3 m 2 = (List.range' 1 m).map fun x => 2 * x + 1 := by
  intro m
  induction m with
  | zero => rfl
  | succ m ih =>
    rw [List.range'_concat, List.range'_concat, List.map_append, ← ih]
    congr 1
    simp
    omega

theorem log2_double {m : Nat} (hm : 1 ≤ m) : Nat.log2 (2 * m) = Nat.log2 m + 1 := by
  rw [Nat.log2]
  have h2 : 2 ≤ 2 * m := by omega
  simp only [h2, if_pos]
  rw [show 2 * m / 2 = m by omega]

theorem log2_double_add_one {m : Nat} (hm : 1 ≤ m) :
    Nat.log2 (2 * m + 1) = Nat.log2 m + 1 := by
  rw [Nat.log2]
  have h2 : 2 ≤ 2 * m + 1 := by omega
  simp only [h2, if_pos]
  rw [show (2 * m + 1) / 2 = m by omega]

/-- The ring simulation computes the classical closed form. -/
theorem josephusLoop_range :
    ∀ (n : Nat), 1 ≤ n →
      josephusLoop (List.range' 1 n) = some ((n - 2 ^ Nat.log2 n) * 2 + 1) := by
  intro n
  induction n using Nat.strong_induction_on with
  | _ n ih =>
    intro hn
    rcases Nat.lt_or_ge n 2 with h2 | h2
    · have hone : n = 1 := by omega
      subst hone
      have hl : Nat.log2 1 = 0 := by rw [Nat.log2]; norm_num
      rw [show List.range' 1 1 = [1] from rfl, hl]
      simp [josephusLoop]
    · rcases Nat.even_or_odd n with ⟨m, hm⟩ | ⟨m, hm⟩
      · have hm2 : n = 2 * m := by omega
        have hm1 : 1 ≤ m := by omega
        have hsplit := josephusLoop_pairs m (List.range' 1 (2 * m)) [] (by simp)
        simp only [List.append_nil, List.nil_append] at hsplit
        rw [hm2, hsplit, everySecond_range'_even m 1, range'_two_odds m,
          josephusLoop_map _ m _ (by simp), ih m (by omega) hm1]
        have hpow : 2 ^ Nat.log2 m ≤ m := Nat.log2_self_le (by omega)
        rw [log2_double hm1]
        have hp2 : (2 : Nat) ^ (Nat.log2 m + 1) = 2 * 2 ^ Nat.log2 m := by ring
        simp only [Option.map_some']
        congr 1
        omega
      · have hm1 : 1 ≤ m := by omega
        rw [hm, List.range'_concat,
          josephusLoop_pairs m (List.range' 1 (2 * m)) _ (by simp),
          everySecond_range'_even m 1]
        have hr : List.range' 1 m 2 = 1 :: List.range' 3 (m - 1) 2 := by
          conv_lhs => rw [show m = (m - 1) + 1 by omega, List.range'_succ]
        rw [hr]
        show josephusLoop ((1 + 1 * (2 * m)) :: 1 :: List.range' 3 (m - 1) 2)
          = _
        rw [josephusLoop_step]
        have hcat : List.range' 3 (m - 1) 2 ++ [1 + 1 * (2 * m)]
            = List.range' 3 m 2 := by
          conv_rhs => rw [show m = (m - 1) + 1 by omega, List.range'_concat]
          congr 2
          omega
        rw [hcat, range'_two_odds3 m, josephusLoop_map _ m _ (by simp),
          ih m (by omega) hm1]
        have hpow : 2 ^ Nat.log2 m ≤ m := Nat.log2_self_le (by omega)
        rw [log2_double_add_one hm1]
        have hp2 : (2 : Nat) ^ (Nat.log2 m + 1) = 2 * 2 ^ Nat.log2 m := by ring
        simp only [Option.map_some']
        congr 1
        omega

/-- Part 1: the closed form agrees with the ring simulation. -/
theorem part1_equiv (n : Nat) (h1 : 1 ≤ n) (h64 : n < 2 ^ 64) :
    part_1_deques n = some (part_1_jospehus n) := by
  rw [part_1_deques, josephusLoop_range n h1, part_1_jospehus]
  have hlog : Nat.log2 n < 64 := (Nat.log2_lt (by omega)).mpr h64
  have hlz : 63 - leadingZeros64 n = Nat.log2 n := by
    rw [leadingZeros64, if_neg (by omega)]
    omega
  rw [hlz]

/-- The across-the-circle Josephus elimination on a single list: the
current person is at the head, the person directly across (at index
`⌊len/2⌋`) is eliminated, and the current person goes to the back. -/
def acrossRun : List α → Option α
  | [] => none
  | [a] => some a
  | c :: x :: rest =>
    acrossRun ((x :: rest).eraseIdx (((x :: rest).length + 1) / 2 - 1) ++ [c])
termination_by l => l.length
decreasing_by
  simp only [List.length_eraseIdx, List.length_append, List.length_cons,
    List.length_nil]
  split <;> omega

theorem acrossRun_nonempty_step (c : α) (rest : List α) (h : rest ≠ []) :
    acrossRun (c :: rest)
      = acrossRun (rest.eraseIdx ((rest.length + 1) / 2 - 1) ++ [c]) := by
  match rest with
  | x :: rs => rw [acrossRun]

theorem eraseIdx_append_cons :
    ∀ (xs : List α) (y : α) (ys : List α),
      (xs ++ y :: ys).eraseIdx xs.length = xs ++ ys := by
  intro xs
  induction xs with
  | nil => intro y ys; rfl
  | cons x xs ih =>
    intro y ys
    show x :: (xs ++ y :: ys).eraseIdx xs.length = _
    rw [ih]
    rfl

theorem eraseIdx_map (f : α → β) :
    ∀ (l : List α) (i : Nat), (l.map f).eraseIdx i = (l.eraseIdx i).map f := by
  intro l
  induction l with
  | nil => intro i; rfl
  | cons x xs ih =>
    intro i
    cases i with
    | zero => rfl
    | succ i =>
      show (f x) :: (xs.map f).eraseIdx i = _
      rw [ih]
      rfl

theorem acrossRun_map (f : α → β) :
    ∀ (n : Nat) (l : List α), l.length = n →
      acrossRun (l.map f) = (acrossRun l).map f := by
  intro n
  induction n using Nat.strong_induction_on with
  | _ n ih =>
    intro l hl
    match l with
    | [] => simp [acrossRun]
    | [a] => simp [acrossRun]
    | c :: x :: rest =>
      rw [List.map_cons,
        acrossRun_nonempty_step (f c) ((x :: rest).map f) (by simp),
        acrossRun_nonempty_step c (x :: rest) (by simp)]
      rw [List.length_map, eraseIdx_map]
      rw [show [f c] = List.map f [c] from rfl, ← List.map_append]
      have hidx : ((x :: rest).length + 1) / 2 - 1 < (x :: rest).length := by
        simp
        omega
      have hlen : ((x :: rest).eraseIdx (((x :: rest).length + 1) / 2 - 1)
          ++ [c]).length = rest.length + 1 := by
        rw [List.length_append, List.length_eraseIdx, if_pos hidx]
        simp only [List.length_cons, List.length_nil]
        omega
      exact ih (rest.length + 1) (by simp at hl; omega) _ hlen

/-- The two-deque simulation refines the single-list across-elimination,
under the invariant that `behind` holds the same number of people as
`ahead` or exactly one more. -/
theorem p2loop_refines :
    ∀ (n : Nat) (ahead behind : List Nat),
      ahead.length + behind.length = n →
      (behind.length = ahead.length ∨ behind.length = ahead.length + 1) →
      1 ≤ n →
      some (p2loop ahead behind) = acrossRun (ahead ++ behind) := by
  intro n
  induction n using Nat.strong_induction_on with
  | _ n ih =>
    intro ahead behind hn hinv h1
    match ahead with
    | [] =>
      match behind with
      | [] => simp at hn; omega
      | [b] => simp [p2loop, acrossRun]
      | b1 :: b2 :: bs => simp at hinv
    | first :: arest =>
      match behind with
      | [] => simp at hinv
      | d :: brest =>
        have hn' : arest.length + 1 + (brest.length + 1) = n := by
          simpa using hn
        have hinv' : brest.length = arest.length ∨
            brest.length = arest.length + 1 := by
          simpa using hinv
        have hacross : acrossRun ((first :: arest) ++ d :: brest)
            = acrossRun ((arest ++ brest) ++ [first]) := by
          rw [List.cons_append,
            acrossRun_nonempty_step first (arest ++ d :: brest) (by simp)]
          have hidx : ((arest ++ d :: brest).length + 1) / 2 - 1
              = arest.length := by
            simp only [List.length_append, List.length_cons]
            omega
          rw [hidx, eraseIdx_append_cons]
        rw [hacross]
        by_cases hc : arest.length + 1 < (brest ++ [first]).length
        · cases brest with
          | nil => simp at hc
          | cons r0 rs =>
            have hc2 : rs.length = arest.length := by
              simp at hc hinv'
              omega
            have hstep : p2loop (first :: arest) (d :: r0 :: rs)
                = p2loop (arest ++ [r0]) (rs ++ [first]) := by
              rw [p2loop]
              simp only [List.cons_append]
              rw [if_pos (by simpa using hc)]
            rw [hstep,
              ih (n - 1) (by omega) (arest ++ [r0]) (rs ++ [first])
                (by simp at hn' ⊢; omega)
                (by simp [hc2])
                (by omega)]
            congr 1
            simp
        · have hc2 : brest.length = arest.length := by
            simp at hc
            omega
          have hstep : p2loop (first :: arest) (d :: brest)
              = p2loop arest (brest ++ [first]) := by
            rw [p2loop]
            rw [if_neg hc]
          rw [hstep,
            ih (n - 1) (by omega) arest (brest ++ [first])
              (by simp at hn' ⊢; omega)
              (by simp [hc2])
              (by omega)]
          congr 1
          simp

theorem map_add_one_range' :
    ∀ (n s : Nat), (List.range' s n).map (fun x => x + 1) = List.range' (s + 1) n := by
  intro n
  induction n with
  | zero => intro s; rfl
  | succ n ih =>
    intro s
    rw [List.range'_succ, List.range'_succ, List.map_cons, ih (s + 1)]

theorem map_add_two_range' :
    ∀ (n s : Nat), (List.range' s n).map (fun x => x + 2) = List.range' (s + 2) n := by
  intro n
  induction n with
  | zero => intro s; rfl
  | succ n ih =>
    intro s
    rw [List.range'_succ, List.range'_succ, List.map_cons, ih (s + 1)]

theorem range'_eraseIdx :
    ∀ (i n s : Nat), i < n →
      (List.range' s n).eraseIdx i
        = List.range' s i ++ List.range' (s + i + 1) (n - i - 1) := by
  intro i
  induction i with
  | zero =>
    intro n s hi
    match n, hi with
    | n + 1, _ =>
      rw [List.range'_succ]
      simp
  | succ i ih =>
    intro n s hi
    match n, hi with
    | n + 1, _ =>
      rw [List.range'_succ]
      show s :: (List.range' (s + 1) n).eraseIdx i = _
      rw [ih n (s + 1) (by omega)]
      rw [show List.range' s (i + 1) = s :: List.range' (s + 1) i from
        List.range'_succ s i 1]
      simp only [List.cons_append]
      congr 3 <;> omega

/-- The relabelling of the circle after one across-elimination: position
`i` of the new circle (of `n - 1` people, counted from `1`) holds the
person who had label `sigma n i` in the old circle of `n` people. -/
def sigma (n i : Nat) : Nat :=
  if i + 1 ≤ n / 2 then i + 1 else if i ≤ n - 2 then i + 2 else 1

theorem sigma_step_list (n : Nat) (hn : 3 ≤ n) :
    (List.range' 1 (n - 1)).map (sigma n)
      = List.range' 2 (n / 2 - 1)
        ++ (List.range' (n / 2 + 2) (n - n / 2 - 1) ++ [1]) := by
  have hsplitA := List.range'_append 1 (n / 2 - 1) (n - n / 2) 1
  rw [one_mul, show 1 + (n / 2 - 1) = n / 2 by omega,
    show n - n / 2 + (n / 2 - 1) = n - 1 by omega] at hsplitA
  have hsplitB : List.range' (n / 2) (n - n / 2)
      = List.range' (n / 2) (n - n / 2 - 1) ++ [n - 1] := by
    conv_lhs => rw [show n - n / 2 = (n - n / 2 - 1) + 1 by omega]
    rw [List.range'_concat]
    congr 2
    omega
  rw [← hsplitA, hsplitB, ← List.append_assoc, List.map_append, List.map_append]
  rw [List.append_assoc]
  congr 1
  · have hseg : ∀ a ∈ List.range' 1 (n / 2 - 1), sigma n a = a + 1 := by
      intro a ha
      rw [List.mem_range'_1] at ha
      rw [sigma, if_pos (by omega)]
    rw [List.map_congr_left hseg, map_add_one_range']
  · congr 1
    · have hseg : ∀ a ∈ List.range' (n / 2) (n - n / 2 - 1),
          sigma n a = a + 2 := by
        intro a ha
        rw [List.mem_range'_1] at ha
        rw [sigma, if_neg (by omega), if_pos (by omega)]
      rw [List.map_congr_left hseg, map_add_two_range']
    · rw [List.map_singleton, sigma, if_neg (by omega), if_neg (by omega)]

theorem sigma_step (n : Nat) (hn : 3 ≤ n) :
    acrossRun (List.range' 1 n)
      = acrossRun ((List.range' 1 (n - 1)).map (sigma n)) := by
  have h1 : List.range' 1 n = 1 :: List.range' 2 (n - 1) := by
    conv_lhs => rw [show n = (n - 1) + 1 by omega, List.range'_succ]
  rw [h1, acrossRun_nonempty_step 1 (List.range' 2 (n - 1))
    (by simp [List.range'_eq_nil]; omega)]
  rw [List.length_range']
  have hidx : n - 1 + 1 = n := by omega
  rw [hidx]
  have hlt : n / 2 - 1 < n - 1 := by omega
  rw [range'_eraseIdx (n / 2 - 1) (n - 1) 2 hlt]
  rw [sigma_step_list n hn]
  rw [List.append_assoc]
  have hB : List.range' (2 + (n / 2 - 1) + 1) (n - 1 - (n / 2 - 1) - 1)
      = List.range' (n / 2 + 2) (n - n / 2 - 1) := by
    congr 1 <;> omega
  rw [hB]

theorem highestPow3Go_spec :
    ∀ (fuel count h j : Nat), h = 3 ^ j → h < count → count - h ≤ fuel →
      ∃ i, highestPow3Go count fuel h = 3 ^ i ∧
        highestPow3Go count fuel h < count ∧
        count ≤ 3 * highestPow3Go count fuel h := by
  intro fuel
  induction fuel with
  | zero =>
    intro count h j hj hlt hf
    omega
  | succ fuel ih =>
    intro count h j hj hlt hf
    have hpos : 1 ≤ h := by
      rw [hj]
      exact Nat.one_le_pow j 3 (by norm_num)
    rw [highestPow3Go]
    by_cases hc : h * 3 < count
    · rw [if_pos hc]
      exact ih count (h * 3) (j + 1) (by rw [hj]; ring) hc (by omega)
    · rw [if_neg hc]
      exact ⟨j, hj, hlt, by omega⟩

theorem highestPow3Go_unique :
    ∀ (fuel count h j i : Nat), h = 3 ^ j → j ≤ i → 3 ^ i < count →
      count ≤ 3 * 3 ^ i → count - h ≤ fuel →
      highestPow3Go count fuel h = 3 ^ i := by
  intro fuel
  induction fuel with
  | zero =>
    intro count h j i hj hji hlt hle hf
    have : h ≤ 3 ^ i := by
      rw [hj]
      exact Nat.pow_le_pow_right (by norm_num) hji
    omega
  | succ fuel ih =>
    intro count h j i hj hji hlt hle hf
    have hpos : 1 ≤ h := by
      rw [hj]
      exact Nat.one_le_pow j 3 (by norm_num)
    rw [highestPow3Go]
    by_cases hc : h * 3 < count
    · rw [if_pos hc]
      have hji' : j < i := by
        rcases Nat.lt_or_ge j i with h' | h'
        · exact h'
        · exfalso
          have : j = i := by omega
          subst this
          rw [hj] at hc
          omega
      exact ih count (h * 3) (j + 1) i (by rw [hj]; ring) (by omega) hlt hle
        (by omega)
    · rw [if_neg hc]
      rcases Nat.lt_or_ge j i with h' | h'
      · exfalso
        have h31 : h * 3 = 3 ^ (j + 1) := by rw [hj]; ring
        have : 3 ^ (j + 1) ≤ 3 ^ i := Nat.pow_le_pow_right (by norm_num) (by omega)
        omega
      · have : j = i := by omega
        rw [hj, this]

/-- The closed form computes the answer satisfying the defining recurrence:
for `2 ≤ n`, round `n` relabels via `sigma` and recurses on `n - 1`. -/
theorem acrossRun_range :
    ∀ (n : Nat), 2 ≤ n →
      acrossRun (List.range' 1 n)
        = some ((n - highestPow3Go n n 1)
          + (n - 2 * highestPow3Go n n 1)) := by
  intro n
  induction n using Nat.strong_induction_on with
  | _ n ih =>
    intro hn
    rcases Nat.lt_or_ge n 3 with h2 | h3
    · have h2' : n = 2 := by omega
      subst h2'
      have hL : acrossRun (List.range' 1 2) = some 1 := by
        show acrossRun [1, 2] = some 1
        rw [acrossRun]
        show acrossRun [1] = some 1
        simp [acrossRun]
      rw [hL]
      rfl
    · rw [sigma_step n h3,
        acrossRun_map (sigma n) (n - 1) (List.range' 1 (n - 1)) (by simp),
        ih (n - 1) (by omega) (by omega)]
      simp only [Option.map_some']
      obtain ⟨i, hri, hrlt, hrge⟩ := highestPow3Go_spec (n - 1) (n - 1) 1 0
        (by norm_num) (by omega) (by omega)
      have hrpos : 1 ≤ highestPow3Go (n - 1) (n - 1) 1 := by
        rw [hri]
        exact Nat.one_le_pow i 3 (by norm_num)
      congr 1
      by_cases hd : n - 1 = 3 * highestPow3Go (n - 1) (n - 1) 1
      · have hn3 : highestPow3Go n n 1 = 3 ^ (i + 1) :=
          highestPow3Go_unique n n 1 0 (i + 1) (by norm_num) (by omega)
            (by rw [show (3:Nat) ^ (i + 1) = 3 * 3 ^ i by ring]; omega)
            (by rw [show (3:Nat) ^ (i + 1) = 3 * 3 ^ i by ring]; omega)
            (by omega)
        have hval : (n - 1 - highestPow3Go (n - 1) (n - 1) 1)
            + (n - 1 - 2 * highestPow3Go (n - 1) (n - 1) 1) = n - 1 := by
          omega
        rw [hval, sigma, if_neg (by omega), if_neg (by omega), hn3]
        have h31 : (3:Nat) ^ (i + 1) = 3 * 3 ^ i := by ring
        omega
      · have hlt3 : n ≤ 3 * highestPow3Go (n - 1) (n - 1) 1 := by omega
        have hn3 : highestPow3Go n n 1 = 3 ^ i :=
          highestPow3Go_unique n n 1 0 i (by norm_num) (by omega)
            (by omega) (by omega) (by omega)
        rw [hn3, ← hri]
        by_cases h2r : n ≤ 2 * highestPow3Go (n - 1) (n - 1) 1
        · have hval : (n - 1 - highestPow3Go (n - 1) (n - 1) 1)
              + (n - 1 - 2 * highestPow3Go (n - 1) (n - 1) 1)
              = n - 1 - highestPow3Go (n - 1) (n - 1) 1 := by
            omega
          rw [hval, sigma, if_pos (by omega)]
          omega
        · have hval : (n - 1 - highestPow3Go (n - 1) (n - 1) 1)
              + (n - 1 - 2 * highestPow3Go (n - 1) (n - 1) 1)
              = 2 * (n - 1) - 3 * highestPow3Go (n - 1) (n - 1) 1 := by
            omega
          rw [hval, sigma, if_neg (by omega), if_pos (by omega)]
          omega

/-- The two-deque simulation computes the exact (unbounded) value of the
closed-form expression. -/
theorem part2_deques_eq_across (n : Nat) (h2 : 2 ≤ n) :
    part_2_deques n
      = (n - highestPow3Go n n 1) + (n - 2 * highestPow3Go n n 1) := by
  have htl : ((List.range' 1 n).take (n / 2)).length = n / 2 := by
    simp [List.length_take, List.length_range']
    omega
  have hdl : ((List.range' 1 n).drop (n / 2)).length = n - n / 2 := by
    simp [List.length_drop, List.length_range']
  have hr := p2loop_refines n ((List.range' 1 n).take (n / 2))
    ((List.range' 1 n).drop (n / 2))
    (by rw [htl, hdl]; omega)
    (by rw [htl, hdl]; omega)
    (by omega)
  rw [List.take_append_drop, acrossRun_range n h2] at hr
  have := Option.some.inj hr
  rw [part_2_deques]
  exact this

/-- Part 2: the closed form agrees with the two-deque simulation for
every count up to `3 ^ 40` — exactly the counts for which the `u64`
product `2 * highest_power_of_3` does not overflow. -/
theorem part2_equiv (n : Nat) (h2 : 2 ≤ n) (h40 : n ≤ 3 ^ 40) :
    part_2_deques n = part_2_josephus n := by
  obtain ⟨i, hri, hrlt, hrge⟩ := highestPow3Go_spec n n 1 0
    (by norm_num) (by omega) (by omega)
  have hi39 : i ≤ 39 := by
    by_contra hgt
    have h40le : (3 : Nat) ^ 40 ≤ 3 ^ i :=
      Nat.pow_le_pow_right (by norm_num) (by omega)
    omega
  have hle : highestPow3Go n n 1 ≤ 3 ^ 39 := by
    rw [hri]
    exact Nat.pow_le_pow_right (by norm_num) hi39
  have hnov : 2 * highestPow3Go n n 1 < 2 ^ 64 := by
    have h239 : (2 : Nat) * 3 ^ 39 < 2 ^ 64 := by norm_num
    omega
  have hnov2 : (n - highestPow3Go n n 1)
      + (n - 2 * highestPow3Go n n 1) < 2 ^ 64 := by
    have h340 : (3 : Nat) ^ 40 < 2 ^ 64 := by norm_num
    omega
  rw [part2_deques_eq_across n h2]
  simp only [part_2_josephus]
  rw [Nat.mod_eq_of_lt hnov, Nat.mod_eq_of_lt hnov2]

end Day19

/-- C9 counterexample: at `count = 3 ^ 40 + 1` the loop exits with
`highest_power_of_3 = 3 ^ 40`, the `u64` product `2 * highest_power_of_3`
wraps at `2 ^ 64`, and the closed form diverges from the two-deque
simulation, whose survivor is `1`. -/
theorem claim_C9_counterexample :
    Day19.part_2_deques (3 ^ 40 + 1) ≠ Day19.part_2_josephus (3 ^ 40 + 1) := by
  have hh : Day19.highestPow3Go (3 ^ 40 + 1) (3 ^ 40 + 1) 1 = 3 ^ 40 :=
    Day19.highestPow3Go_unique (3 ^ 40 + 1) (3 ^ 40 + 1) 1 0 40 (by norm_num)
      (by norm_num) (by norm_num) (by norm_num) (by norm_num)
  have hdeq : Day19.part_2_deques (3 ^ 40 + 1) = 1 := by
    rw [Day19.part2_deques_eq_across (3 ^ 40 + 1) (by norm_num), hh]
    norm_num
  rw [hdeq]
  simp only [Day19.part_2_josephus]
  rw [hh]
  norm_num

/-- C9 (amended): for every count `1 ≤ n < 2 ^ 64`, day 19's closed form
`part_1_jospehus` returns the same survivor as the ring simulation
`part_1_deques`; and for every count `2 ≤ n ≤ 3 ^ 40` — exactly the
counts for which the `u64` product `2 * highest_power_of_3` does not
overflow — the closed form `part_2_josephus` returns the same survivor
as the two-deque simulation `part_2_deques`. -/
theorem claim_C9 (n : Nat) :
    (1 ≤ n → n < 2 ^ 64 →
      Day19.part_1_deques n = some (Day19.part_1_jospehus n)) ∧
    (2 ≤ n → n ≤ 3 ^ 40 →
      Day19.part_2_deques n = Day19.part_2_josephus n) :=
  ⟨fun h1 h64 => Day19.part1_equiv n h1 h64,
   fun h2 h40 => Day19.part2_equiv n h2 h40⟩

theorem claim_C9_witness :
    Day19.part_1_deques 5 = some (Day19.part_1_jospehus 5) ∧
    Day19.part_2_deques 5 = Day19.part_2_josephus 5 :=
  ⟨(claim_C9 5).1 (by norm_num) (by norm_num),
   (claim_C9 5).2 (by norm_num) (by norm_num)⟩

/-! ## The grid and its breadth-first shortest path (`src/utils.rs`) -/

namespace Utils

/-- `Grid<T>` from `utils.rs`: row-major data with `rows * cols` cells. -/
structure Grid (α : Type) where
  data : List α
  rows : Nat
  cols : Nat

/-- `Grid::new`, with `T::default()` passed explicitly. -/
def Grid.new (rows cols : Nat) (d0 : α) : Grid α :=
  ⟨List.replicate (rows * cols) d0, rows, cols⟩

/-- `Index<(usize, usize)>`: `self.data[row * self.cols + col]`.  All
reads performed by the search are in bounds, so the default is never
returned there. -/
def Grid.getD (g : Grid α) (p : Nat × Nat) (d0 : α) : α :=
  g.data.getD (p.1 * g.cols + p.2) d0

/-- `IndexMut<(usize, usize)>` assignment. -/
def Grid.set (g : Grid α) (p : Nat × Nat) (v : α) : Grid α :=
  { g with data := g.data.set (p.1 * g.cols + p.2) v }

def Grid.inBounds (g : Grid α) (p : Nat × Nat) : Prop :=
  p.1 < g.rows ∧ p.2 < g.cols

/-- The four bounds-checked neighbour candidates of `enqueue_neighbors`,
in source order: up (`checked_sub`), left (`checked_sub`), down, right. -/
def neighborCandidates (g : Grid α) (p : Nat × Nat) : List (Nat × Nat) :=
  ([if 1 ≤ p.1 then some (p.1 - 1, p.2) else none,
    if 1 ≤ p.2 then some (p.1, p.2 - 1) else none,
    if p.1 + 1 < g.rows then some (p.1 + 1, p.2) else none,
    if p.2 + 1 < g.cols then some (p.1, p.2 + 1) else none]).filterMap id

/-- `self[pos1].is_passable()`, with the `is_passable` trait method as a
parameter; the positions tested are in bounds by construction, so the
out-of-range `false` branch is never taken on a well-formed grid. -/
def passAt (pass : α → Bool) (g : Grid α) (p : Nat × Nat) : Bool :=
  match g.data[p.1 * g.cols + p.2]? with
  | some t => pass t
  | none => false

/-- The filtered neighbour list pushed by `enqueue_neighbors`. -/
def neighbors (pass : α → Bool) (g : Grid α) (p : Nat × Nat) : List (Nat × Nat) :=
  (neighborCandidates g p).filter (passAt pass g)

/-- `Grid::enqueue_neighbors`: extends the queue at the back. -/
def enqueue_neighbors (pass : α → Bool) (g : Grid α) (pos : Nat × Nat)
    (queue : List (Nat × Nat)) : List (Nat × Nat) :=
  queue ++ neighbors pass g pos

/-- Outcome of the inner `for _ in 0..pending.len()` loop of
`shortest_path`: either the early `return Some(dist)` fired, or the loop
finished with updated `visited` and `pending`. -/
inductive LayerOut
  | found : Nat → LayerOut
  | next : Grid Bool → List (Nat × Nat) → LayerOut

/-- The inner loop of `shortest_path`: pops `k` positions off the front
of `pending` (`pop_front().unwrap()` is `none` on an empty deque),
skipping visited ones, marking and testing the rest, and enqueueing
neighbours at the back. -/
def runLayer (pass : α → Bool) (g : Grid α) (target : Nat × Nat) (dist : Nat) :
    Nat → Grid Bool → List (Nat × Nat) → Option LayerOut
  | 0, visited, pending => some (.next visited pending)
  | k + 1, visited, pending =>
    match pending with
    | [] => none
    | pos :: rest =>
      if visited.getD pos false then runLayer pass g target dist k visited rest
      else
        if pos = target then some (.found dist)
        else runLayer pass g target dist k (visited.set pos true)
          (enqueue_neighbors pass g pos rest)

/-- The outer `while !pending.is_empty()` loop of `shortest_path`, with
`dist` incremented per layer.  `fuel` bounds the number of layers; the
proofs instantiate it with `rows * cols + 2`, which is shown to be
enough, so the `none` fuel-exhaustion answer never arises. -/
def bfsGo (pass : α → Bool) (g : Grid α) (target : Nat × Nat) :
    Nat → Grid Bool → List (Nat × Nat) → Nat → Option (Option Nat)
  | 0, _, _, _ => none
  | fuel + 1, visited, pending, dist =>
    match pending with
    | [] => some none
    | _ :: _ =>
      match runLayer pass g target dist pending.length visited pending with
      | none => none
      | some (.found d) => some (some d)
      | some (.next visited' pending') =>
        bfsGo pass g target fuel visited' pending' (dist + 1)

/-- `Grid::shortest_path` from `utils.rs`.  The outer `some` layer
records that the search neither panicked nor ran out of fuel. -/
def shortest_path (pass : α → Bool) (g : Grid α)
    (source target : Nat × Nat) : Option (Option Nat) :=
  bfsGo pass g target (g.rows * g.cols + 2)
    (Grid.new g.rows g.cols false) [source] 0

/-- A path of exactly `d` orthogonal moves from `source`, each move
landing in bounds on a passable tile (the specification side of C2). -/
inductive Reach (pass : α → Bool) (g : Grid α) (source : Nat × Nat) :
    Nat → (Nat × Nat) → Prop
  | refl : Reach pass g source 0 source
  | step {d : Nat} {p q : Nat × Nat} : Reach pass g source d p →
      q ∈ neighbors pass g p → Reach pass g source (d + 1) q

/-- Reachable in fewer than `D` moves. -/
def distLT (pass : α → Bool) (g : Grid α) (source : Nat × Nat)
    (D : Nat) (p : Nat × Nat) : Prop :=
  ∃ d, d < D ∧ Reach pass g source d p

/-- The `visited` grid has the same shape as the tile grid. -/
def visitedWF (v : Grid Bool) (g : Grid α) : Prop :=
  v.rows = g.rows ∧ v.cols = g.cols ∧ v.data.length = g.rows * g.cols

/-- Number of visited cells. -/
def trueCount (v : Grid Bool) : Nat := v.data.count true

theorem index_inj {cols r1 c1 r2 c2 : Nat} (h1 : c1 < cols) (h2 : c2 < cols)
    (h : r1 * cols + c1 = r2 * cols + c2) : r1 = r2 ∧ c1 = c2 := by
  have hr : r1 = r2 := by
    rcases Nat.lt_trichotomy r1 r2 with h' | h' | h'
    · exfalso
      have h3 : (r1 + 1) * cols ≤ r2 * cols := Nat.mul_le_mul (by omega) (le_refl cols)
      rw [Nat.add_one_mul] at h3
      omega
    · exact h'
    · exfalso
      have h3 : (r2 + 1) * cols ≤ r1 * cols := Nat.mul_le_mul (by omega) (le_refl cols)
      rw [Nat.add_one_mul] at h3
      omega
  subst hr
  exact ⟨rfl, by omega⟩

theorem mem_neighborCandidates {g : Grid α} {p q : Nat × Nat} :
    q ∈ neighborCandidates g p ↔
      ((1 ≤ p.1 ∧ q = (p.1 - 1, p.2)) ∨ (1 ≤ p.2 ∧ q = (p.1, p.2 - 1)) ∨
       (p.1 + 1 < g.rows ∧ q = (p.1 + 1, p.2)) ∨
       (p.2 + 1 < g.cols ∧ q = (p.1, p.2 + 1))) := by
  constructor
  · intro hq
    obtain ⟨o, ho, hid⟩ := List.mem_filterMap.mp hq
    have ho' : o = some q := hid
    subst ho'
    simp only [neighborCandidates, List.mem_cons, List.not_mem_nil, or_false]
      at ho
    rcases ho with h | h | h | h
    · by_cases hc : 1 ≤ p.1
      · rw [if_pos hc] at h
        exact Or.inl ⟨hc, (Option.some.inj h)⟩
      · rw [if_neg hc] at h
        simp at h
    · by_cases hc : 1 ≤ p.2
      · rw [if_pos hc] at h
        exact Or.inr (Or.inl ⟨hc, (Option.some.inj h)⟩)
      · rw [if_neg hc] at h
        simp at h
    · by_cases hc : p.1 + 1 < g.rows
      · rw [if_pos hc] at h
        exact Or.inr (Or.inr (Or.inl ⟨hc, (Option.some.inj h)⟩))
      · rw [if_neg hc] at h
        simp at h
    · by_cases hc : p.2 + 1 < g.cols
      · rw [if_pos hc] at h
        exact Or.inr (Or.inr (Or.inr ⟨hc, (Option.some.inj h)⟩))
      · rw [if_neg hc] at h
        simp at h
  · intro h
    rcases h with ⟨hc, rfl⟩ | ⟨hc, rfl⟩ | ⟨hc, rfl⟩ | ⟨hc, rfl⟩
    · exact List.mem_filterMap.mpr
        ⟨some (p.1 - 1, p.2), by simp [neighborCandidates, hc], rfl⟩
    · exact List.mem_filterMap.mpr
        ⟨some (p.1, p.2 - 1), by simp [neighborCandidates, hc], rfl⟩
    · exact List.mem_filterMap.mpr
        ⟨some (p.1 + 1, p.2), by simp [neighborCandidates, hc], rfl⟩
    · exact List.mem_filterMap.mpr
        ⟨some (p.1, p.2 + 1), by simp [neighborCandidates, hc], rfl⟩

theorem neighborCandidates_inBounds {g : Grid α} {p q : Nat × Nat}
    (hp : g.inBounds p) (hq : q ∈ neighborCandidates g p) : g.inBounds q := by
  obtain ⟨hr, hc⟩ := hp
  rcases mem_neighborCandidates.mp hq with ⟨h, rfl⟩ | ⟨h, rfl⟩ | ⟨h, rfl⟩ | ⟨h, rfl⟩ <;>
    exact ⟨by omega, by omega⟩

theorem neighbors_inBounds {pass : α → Bool} {g : Grid α} {p q : Nat × Nat}
    (hp : g.inBounds p) (hq : q ∈ neighbors pass g p) : g.inBounds q :=
  neighborCandidates_inBounds hp (List.mem_filter.mp hq).1

theorem getD_new_false (rows cols : Nat) (p : Nat × Nat) :
    (Grid.new rows cols false).getD p false = false := by
  simp only [Grid.new, Grid.getD]
  rw [List.getD_eq_getElem?_getD]
  rcases Nat.lt_or_ge (p.1 * cols + p.2) (rows * cols) with h | h
  · rw [List.getElem?_eq_getElem (by simpa using h)]
    simp
  · rw [List.getElem?_eq_none (by simpa using h)]
    rfl

theorem getD_set_self {v : Grid Bool} {p : Nat × Nat}
    (h : p.1 * v.cols + p.2 < v.data.length) :
    (v.set p true).getD p false = true := by
  obtain ⟨data, rows, cols⟩ := v
  simp only [Grid.set, Grid.getD] at h ⊢
  rw [List.getD_eq_getElem?_getD, List.getElem?_eq_getElem (by simpa using h),
    List.getElem_set_self]
  rfl

theorem getD_set_ne {v : Grid Bool} {p q : Nat × Nat}
    (h : p.1 * v.cols + p.2 ≠ q.1 * v.cols + q.2) :
    (v.set p true).getD q false = v.getD q false := by
  obtain ⟨data, rows, cols⟩ := v
  simp only [Grid.set, Grid.getD] at h ⊢
  rw [List.getD_eq_getElem?_getD, List.getD_eq_getElem?_getD]
  rcases Nat.lt_or_ge (q.1 * cols + q.2) data.length with hq | hq
  · rw [List.getElem?_eq_getElem (by simpa using hq), List.getElem?_eq_getElem hq,
      List.getElem_set_of_ne h]
  · rw [List.getElem?_eq_none (by simpa using hq), List.getElem?_eq_none hq]

theorem count_set_true :
    ∀ (l : List Bool) (i : Nat), i < l.length → l.getD i false = false →
      (l.set i true).count true = l.count true + 1 := by
  intro l
  induction l with
  | nil => intro i hi hx; simp at hi
  | cons x xs ih =>
    intro i hi hx
    cases i with
    | zero =>
      have hx0 : x = false := by simpa [List.getD] using hx
      subst hx0
      simp [List.count_cons]
    | succ i =>
      have := ih i (by simpa using hi) (by simpa [List.getD] using hx)
      simp only [List.set_cons_succ, List.count_cons, this]
      omega

theorem visitedWF_set {v : Grid Bool} {g : Grid α} (h : visitedWF v g)
    (p : Nat × Nat) (b : Bool) : visitedWF (v.set p b) g := by
  obtain ⟨h1, h2, h3⟩ := h
  exact ⟨h1, h2, by simpa [Grid.set]⟩

theorem index_lt {rows cols r c : Nat} (hr : r < rows) (hc : c < cols) :
    r * cols + c < rows * cols := by
  have h1 : (r + 1) * cols ≤ rows * cols := Nat.mul_le_mul (by omega) (le_refl cols)
  rw [Nat.add_one_mul] at h1
  omega

theorem list_getD_set_self {l : List Bool} {i : Nat} (h : i < l.length) :
    (l.set i true).getD i false = true := by
  rw [List.getD_eq_getElem?_getD, List.getElem?_eq_getElem (by simpa using h),
    List.getElem_set_self]
  rfl

theorem getD_true_lt_length {v : Grid Bool} {q : Nat × Nat}
    (h : v.getD q false = true) : q.1 * v.cols + q.2 < v.data.length := by
  by_contra hge
  rw [Grid.getD, List.getD_eq_getElem?_getD,
    List.getElem?_eq_none (by omega)] at h
  simp at h

theorem getD_set_true_of_true {v : Grid Bool} {p q : Nat × Nat}
    (h : v.getD q false = true) : (v.set p true).getD q false = true := by
  have hlt := getD_true_lt_length h
  by_cases hij : p.1 * v.cols + p.2 = q.1 * v.cols + q.2
  · obtain ⟨data, rows, cols⟩ := v
    simp only [Grid.set, Grid.getD] at hij hlt h ⊢
    rw [← hij] at hlt ⊢
    exact list_getD_set_self hlt
  · rw [getD_set_ne hij]
    exact h

theorem reach_inBounds {pass : α → Bool} {g : Grid α} {source : Nat × Nat}
    (hs : g.inBounds source) :
    ∀ {d : Nat} {p : Nat × Nat}, Reach pass g source d p → g.inBounds p := by
  intro d p h
  induction h with
  | refl => exact hs
  | step hp hnb ih => exact neighbors_inBounds ih hnb

/-- If every position reachable in exactly `D` moves is also reachable in
fewer, then every reachable position is reachable in fewer than `D`
moves (the frontier-exhaustion argument behind the `None` return). -/
theorem reach_closure (pass : α → Bool) (g : Grid α) (source : Nat × Nat)
    (D : Nat)
    (hD : ∀ q, Reach pass g source D q → distLT pass g source D q) :
    ∀ e q, Reach pass g source e q → distLT pass g source D q := by
  intro e
  induction e using Nat.strong_induction_on with
  | _ e ih =>
    intro q hr
    rcases Nat.lt_or_ge e D with he | he
    · exact ⟨e, he, hr⟩
    · rcases Nat.eq_or_lt_of_le he with he' | he'
      · refine hD q ?_
        rw [he']
        exact hr
      · cases hr with
        | refl => omega
        | step hp hnb =>
          obtain ⟨d0, hd0, hp0⟩ := ih _ (by omega) _ hp
          rcases Nat.lt_or_ge (d0 + 1) D with h1 | h1
          · exact ⟨d0 + 1, h1, Reach.step hp0 hnb⟩
          · have hDe : d0 + 1 = D := by omega
            exact hD q (hDe ▸ Reach.step hp0 hnb)

theorem unreachable_of_frontier_empty (pass : α → Bool) (g : Grid α)
    (source target : Nat × Nat) (D : Nat)
    (h1 : ∀ q, Reach pass g source D q → distLT pass g source D q)
    (h2 : ∀ d, d < D → ¬ Reach pass g source d target) :
    ∀ d, ¬ Reach pass g source d target := by
  intro d hr
  obtain ⟨d', hd', hr'⟩ := reach_closure pass g source D h1 d target hr
  exact h2 d' hd' hr'

/-- Invariant preservation for one sweep of the inner loop: processing
the first `k` queued positions (`F`), with `B` already accumulated
behind them, either fires the early return on `target` (then `target`
has a path of exactly `D` moves) or completes the layer with the
frontier of distance-`D` positions fully visited and all their
neighbours queued. -/
theorem runLayer_spec (pass : α → Bool) (g : Grid α) (source target : Nat × Nat)
    (D : Nat) (htb : g.inBounds target) :
    ∀ (k : Nat) (V : Grid Bool) (F B : List (Nat × Nat)),
      F.length = k →
      visitedWF V g →
      (∀ p, g.inBounds p → V.getD p false = true →
        ∃ d, d ≤ D ∧ Reach pass g source d p) →
      (∀ p, distLT pass g source D p → V.getD p false = true) →
      (∀ q, q ∈ F → g.inBounds q ∧ ∃ d, d ≤ D ∧ Reach pass g source d q) →
      (∀ q, q ∈ B → g.inBounds q ∧ ∃ d, d ≤ D + 1 ∧ Reach pass g source d q) →
      (∀ q, Reach pass g source D q → V.getD q false = true ∨ q ∈ F) →
      (∀ p, g.inBounds p → V.getD p false = true → ¬ distLT pass g source D p →
        ∀ q, q ∈ neighbors pass g p → q ∈ B) →
      V.getD target false = false →
      ∃ out, runLayer pass g target D k V (F ++ B) = some out ∧
        ((out = .found D ∧ Reach pass g source D target) ∨
         (∃ V' P', out = .next V' P' ∧
           visitedWF V' g ∧
           (∀ p, g.inBounds p → V'.getD p false = true →
             ∃ d, d ≤ D ∧ Reach pass g source d p) ∧
           (∀ p, V.getD p false = true → V'.getD p false = true) ∧
           (∀ q, Reach pass g source D q → V'.getD q false = true) ∧
           (∀ q, q ∈ P' →
             g.inBounds q ∧ ∃ d, d ≤ D + 1 ∧ Reach pass g source d q) ∧
           (∀ p, g.inBounds p → V'.getD p false = true →
             ¬ distLT pass g source D p →
             ∀ q, q ∈ neighbors pass g p → q ∈ P') ∧
           V'.getD target false = false ∧
           trueCount V ≤ trueCount V' ∧
           (trueCount V' = trueCount V → P' = B))) := by
  intro k
  induction k with
  | zero =>
    intro V F B hF hwf ha ha2 hFi hBi hc hc2 hVt
    have hF0 : F = [] := List.length_eq_zero.mp hF
    subst hF0
    refine ⟨.next V B, by simp [runLayer], Or.inr ⟨V, B, rfl, hwf, ha,
      fun p hp => hp, ?_, hBi, hc2, hVt, le_refl _, fun _ => rfl⟩⟩
    intro q hq
    rcases hc q hq with h | h
    · exact h
    · simp at h
  | succ k ih =>
    intro V F B hF hwf ha ha2 hFi hBi hc hc2 hVt
    cases F with
    | nil => simp at hF
    | cons f F' =>
      have hF' : F'.length = k := by simpa using hF
      have hbf : g.inBounds f := (hFi f (by simp)).1
      obtain ⟨df, hdf, hrf⟩ := (hFi f (by simp)).2
      rw [List.cons_append]
      by_cases hv : V.getD f false = true
      · have hstep : runLayer pass g target D (k + 1) V (f :: (F' ++ B))
            = runLayer pass g target D k V (F' ++ B) := by
          simp only [runLayer]
          rw [if_pos hv]
        rw [hstep]
        have hc' : ∀ q, Reach pass g source D q →
            V.getD q false = true ∨ q ∈ F' := by
          intro q hq
          rcases hc q hq with h | h
          · exact Or.inl h
          · rcases List.mem_cons.mp h with rfl | h'
            · exact Or.inl hv
            · exact Or.inr h'
        exact ih V F' B hF' hwf ha ha2
          (fun q hq => hFi q (List.mem_cons_of_mem f hq)) hBi hc' hc2 hVt
      · by_cases hft : f = target
        · have hstep : runLayer pass g target D (k + 1) V (f :: (F' ++ B))
              = some (.found D) := by
            simp only [runLayer]
            rw [if_neg hv, if_pos hft]
          refine ⟨.found D, hstep, Or.inl ⟨rfl, ?_⟩⟩
          have hnd : ¬ distLT pass g source D target := by
            intro hd
            have h := ha2 target hd
            rw [hVt] at h
            simp at h
          have hdD : df = D := by
            rcases Nat.eq_or_lt_of_le hdf with h | h
            · exact h
            · exact absurd ⟨df, h, hft ▸ hrf⟩ hnd
          rw [← hdD]
          exact hft ▸ hrf
        · have hvfalse : V.getD f false = false := by
            rw [← Bool.not_eq_true]
            exact hv
          have hcols : V.cols = g.cols := hwf.2.1
          have hidxf : f.1 * V.cols + f.2 < V.data.length := by
            rw [hcols, hwf.2.2]
            exact index_lt hbf.1 hbf.2
          have hgetne : ∀ q : Nat × Nat, g.inBounds q → q ≠ f →
              (V.set f true).getD q false = V.getD q false := by
            intro q hq hqf
            refine getD_set_ne ?_
            intro heq
            rw [hcols] at heq
            obtain ⟨hr1, hc1⟩ := index_inj hbf.2 hq.2 heq
            exact hqf (Prod.ext hr1 hc1).symm
          have hgetf : (V.set f true).getD f false = true := getD_set_self hidxf
          have hchar : ∀ p : Nat × Nat, g.inBounds p →
              (V.set f true).getD p false = true →
              p = f ∨ V.getD p false = true := by
            intro p hp hpv
            by_cases hpf : p = f
            · exact Or.inl hpf
            · right
              rw [← hgetne p hp hpf]
              exact hpv
          have hcV : trueCount (V.set f true) = trueCount V + 1 :=
            count_set_true V.data (f.1 * V.cols + f.2) hidxf hvfalse
          have hstep : runLayer pass g target D (k + 1) V (f :: (F' ++ B))
              = runLayer pass g target D k (V.set f true)
                (F' ++ (B ++ neighbors pass g f)) := by
            simp only [runLayer]
            rw [if_neg hv, if_neg hft, enqueue_neighbors, List.append_assoc]
          rw [hstep]
          obtain ⟨out, hout, hcase⟩ := ih (V.set f true) F'
            (B ++ neighbors pass g f) hF'
            (visitedWF_set hwf f true)
            (by
              intro p hp hpv
              rcases hchar p hp hpv with rfl | hold
              · exact ⟨df, hdf, hrf⟩
              · exact ha p hp hold)
            (fun p hd => getD_set_true_of_true (ha2 p hd))
            (fun q hq => hFi q (List.mem_cons_of_mem f hq))
            (by
              intro q hq
              rcases List.mem_append.mp hq with h | h
              · exact hBi q h
              · exact ⟨neighbors_inBounds hbf h, df + 1, by omega,
                  Reach.step hrf h⟩)
            (by
              intro q hq
              rcases hc q hq with h | h
              · exact Or.inl (getD_set_true_of_true h)
              · rcases List.mem_cons.mp h with rfl | h'
                · exact Or.inl hgetf
                · exact Or.inr h')
            (by
              intro p hp hpv hnd q hq
              rcases hchar p hp hpv with rfl | hold
              · exact List.mem_append.mpr (Or.inr hq)
              · exact List.mem_append.mpr (Or.inl (hc2 p hp hold hnd q hq)))
            (by
              rw [hgetne target htb (fun h => hft h.symm)]
              exact hVt)
          refine ⟨out, hout, ?_⟩
          rcases hcase with hfound |
            ⟨V', P', hnext, hwf', ha', hmono', hreach', hPi', hc2', hVt',
              hcount', heq'⟩
          · exact Or.inl hfound
          · refine Or.inr ⟨V', P', hnext, hwf', ha',
              (fun p hp => hmono' p (getD_set_true_of_true hp)),
              hreach', hPi', hc2', hVt', by omega, ?_⟩
            intro h
            exact absurd h (by omega)

/-- Correctness of the outer layer loop, by induction on the fuel: the
answer is `some dist` for the first layer containing `target` and `none`
when the queue empties, and `rows * cols + 2` fuel never runs out
because each layer either visits a new cell or empties the queue. -/
theorem bfsGo_spec (pass : α → Bool) (g : Grid α) (source target : Nat × Nat)
    (hs : g.inBounds source) (htb : g.inBounds target) :
    ∀ (fuel : Nat) (V : Grid Bool) (P : List (Nat × Nat)) (D : Nat),
      visitedWF V g →
      (∀ p, g.inBounds p →
        (V.getD p false = true ↔ distLT pass g source D p)) →
      (∀ q, q ∈ P → g.inBounds q ∧ ∃ d, d ≤ D ∧ Reach pass g source d q) →
      (∀ q, Reach pass g source D q → V.getD q false = true ∨ q ∈ P) →
      (∀ d, d < D → ¬ Reach pass g source d target) →
      g.rows * g.cols - trueCount V + 2 ≤ fuel →
      ∃ res, bfsGo pass g target fuel V P D = some res ∧
        (∀ d, res = some d → Reach pass g source d target ∧
          ∀ e, e < d → ¬ Reach pass g source e target) ∧
        (res = none → ∀ d, ¬ Reach pass g source d target) := by
  intro fuel
  induction fuel with
  | zero =>
    intro V P D hwf hA hb hc hDt hfuel
    omega
  | succ fuel ih =>
    intro V P D hwf hA hb hc hDt hfuel
    cases P with
    | nil =>
      refine ⟨none, by simp [bfsGo], by simp, fun _ => ?_⟩
      refine unreachable_of_frontier_empty pass g source target D ?_ hDt
      intro q hq
      rcases hc q hq with h | h
      · exact (hA q (reach_inBounds hs hq)).mp h
      · simp at h
    | cons p0 P' =>
      have hVt : V.getD target false = false := by
        cases hvt : V.getD target false with
        | false => rfl
        | true =>
          exfalso
          obtain ⟨d, hd, hr⟩ := (hA target htb).mp hvt
          exact hDt d hd hr
      have hcount_le : trueCount V ≤ g.rows * g.cols := by
        have h0 : trueCount V = List.count true V.data := rfl
        have h1 : List.count true V.data ≤ V.data.length :=
          List.count_le_length true V.data
        have h2 := hwf.2.2
        omega
      obtain ⟨out, hout, hcase⟩ := runLayer_spec pass g source target D htb
        (p0 :: P').length V (p0 :: P') [] rfl hwf
        (by
          intro p hp hpv
          obtain ⟨d, hd, hr⟩ := (hA p hp).mp hpv
          exact ⟨d, by omega, hr⟩)
        (by
          intro p hd
          have hpin : g.inBounds p := by
            obtain ⟨d, _, hr⟩ := hd
            exact reach_inBounds hs hr
          exact (hA p hpin).mpr hd)
        hb
        (by intro q hq; simp at hq)
        hc
        (by intro p hp hpv hnd q hq; exact absurd ((hA p hp).mp hpv) hnd)
        hVt
      rw [List.append_nil] at hout
      simp only [bfsGo]
      rw [hout]
      rcases hcase with ⟨hfeq, hreach⟩ |
        ⟨V', P', hnext, hwf', ha', hmono', hreach', hPi', hc2', hVt',
          hcount', heq'⟩
      · subst hfeq
        refine ⟨some D, rfl, ?_, by simp⟩
        intro d hd
        obtain rfl : D = d := Option.some.inj hd
        exact ⟨hreach, hDt⟩
      · subst hnext
        have hA' : ∀ p, g.inBounds p →
            (V'.getD p false = true ↔ distLT pass g source (D + 1) p) := by
          intro p hp
          constructor
          · intro hpv
            obtain ⟨d, hd, hr⟩ := ha' p hp hpv
            exact ⟨d, by omega, hr⟩
          · rintro ⟨d, hd, hr⟩
            rcases Nat.lt_or_ge d D with h | h
            · exact hmono' p ((hA p hp).mpr ⟨d, h, hr⟩)
            · have hdD : d = D := by omega
              exact hreach' p (hdD ▸ hr)
        have hc'' : ∀ q, Reach pass g source (D + 1) q →
            V'.getD q false = true ∨ q ∈ P' := by
          intro q hq
          cases hq with
          | step hp hnb =>
            rename_i p
            have hpin : g.inBounds p := reach_inBounds hs hp
            by_cases hdp : distLT pass g source D p
            · obtain ⟨d0, hd0, hr0⟩ := hdp
              left
              exact (hA' q (neighbors_inBounds hpin hnb)).mpr
                ⟨d0 + 1, by omega, Reach.step hr0 hnb⟩
            · right
              exact hc2' p hpin (hreach' p hp) hdp q hnb
        have hDt' : ∀ d, d < D + 1 → ¬ Reach pass g source d target := by
          intro d hd hr
          rcases Nat.lt_or_ge d D with h | h
          · exact hDt d h hr
          · have hdD : d = D := by omega
            have hvt := hreach' target (hdD ▸ hr)
            rw [hVt'] at hvt
            simp at hvt
        by_cases hcnt : trueCount V' = trueCount V
        · have hP' : P' = [] := heq' hcnt
          subst hP'
          cases fuel with
          | zero => omega
          | succ f2 =>
            refine ⟨none, by simp [bfsGo], by simp, fun _ => ?_⟩
            refine unreachable_of_frontier_empty pass g source target (D + 1)
              ?_ hDt'
            intro q hq
            rcases hc'' q hq with h | h
            · exact (hA' q (reach_inBounds hs hq)).mp h
            · simp at h
        · have hcle' : trueCount V' ≤ g.rows * g.cols := by
            have h0 : trueCount V' = List.count true V'.data := rfl
            have h1 : List.count true V'.data ≤ V'.data.length :=
              List.count_le_length true V'.data
            have h2 := hwf'.2.2
            omega
          exact ih V' P' (D + 1) hwf' hA' hPi' hc'' hDt' (by omega)

end Utils

/-- C2: for every grid of tiles with a passability predicate and every
pair of in-bounds positions, `Grid::shortest_path` returns (without
panicking or exhausting its layer budget) `Some d` with `d` the minimum
number of orthogonal moves onto passable tiles from `source` to
`target`, returns `None` exactly when no such path exists, and in
particular returns `Some 0` when `source = target`. -/
theorem claim_C2 {α : Type} (pass : α → Bool) (g : Utils.Grid α)
    (source target : Nat × Nat)
    (hs : g.inBounds source) (ht : g.inBounds target) :
    ∃ res, Utils.shortest_path pass g source target = some res ∧
      (∀ d, res = some d →
        Utils.Reach pass g source d target ∧
        ∀ e, e < d → ¬ Utils.Reach pass g source e target) ∧
      ((res = none) ↔ ∀ d, ¬ Utils.Reach pass g source d target) ∧
      (source = target → res = some 0) := by
  have hc0 : Utils.trueCount (Utils.Grid.new g.rows g.cols false) = 0 := by
    simp [Utils.trueCount, Utils.Grid.new, List.count_replicate]
  obtain ⟨res, hres, hsome, hnone⟩ :=
    Utils.bfsGo_spec pass g source target hs ht
      (g.rows * g.cols + 2) (Utils.Grid.new g.rows g.cols false) [source] 0
      ⟨rfl, rfl, by simp [Utils.Grid.new]⟩
      (by
        intro p hp
        rw [Utils.getD_new_false]
        constructor
        · intro h
          simp at h
        · rintro ⟨d, hd, _⟩
          omega)
      (by
        intro q hq
        rcases List.mem_singleton.mp hq with rfl
        exact ⟨hs, 0, le_refl 0, Utils.Reach.refl⟩)
      (by
        intro q hq
        cases hq with
        | refl => exact Or.inr (by simp))
      (by omega)
      (by omega)
  refine ⟨res, hres, hsome, ?_, ?_⟩
  · constructor
    · exact hnone
    · intro hall
      cases res with
      | none => rfl
      | some d => exact absurd (hsome d rfl).1 (hall d)
  · intro hst
    cases res with
    | none => exact absurd (hst ▸ Utils.Reach.refl) (hnone rfl 0)
    | some d =>
      obtain ⟨hr, hmin⟩ := hsome d rfl
      have hd0 : d = 0 := by
        by_contra hne
        exact hmin 0 (by omega) (hst ▸ Utils.Reach.refl)
      rw [hd0]

/-- Witness for C2 on a 2-by-2 grid of passable tiles, from corner to
opposite corner: the search succeeds, and the result `some 2` satisfies
the shortest-distance characterization. -/
theorem claim_C2_witness :
    Utils.shortest_path (fun b => b)
        (⟨[true, true, true, true], 2, 2⟩ : Utils.Grid Bool) (0, 0) (1, 1)
      = some (some 2) ∧
    (∃ res, Utils.shortest_path (fun b => b)
        (⟨[true, true, true, true], 2, 2⟩ : Utils.Grid Bool) (0, 0) (1, 1)
        = some res ∧
      (∀ d, res = some d →
        Utils.Reach (fun b => b)
          (⟨[true, true, true, true], 2, 2⟩ : Utils.Grid Bool) (0, 0) d (1, 1) ∧
        ∀ e, e < d → ¬ Utils.Reach (fun b => b)
          (⟨[true, true, true, true], 2, 2⟩ : Utils.Grid Bool) (0, 0) e (1, 1)) ∧
      ((res = none) ↔ ∀ d, ¬ Utils.Reach (fun b => b)
          (⟨[true, true, true, true], 2, 2⟩ : Utils.Grid Bool) (0, 0) d (1, 1)) ∧
      (((0, 0) : Nat × Nat) = (1, 1) → res = some 0)) :=
  ⟨by decide,
   claim_C2 (fun b => b) ⟨[true, true, true, true], 2, 2⟩ (0, 0) (1, 1)
     ⟨by norm_num, by norm_num⟩ ⟨by norm_num, by norm_num⟩⟩

/-! ## Day 21: password scrambling (`src/day_21.rs`) -/

namespace Day21

/-- `enum Letter`: the eight letters `a`–`h`. -/
def Letter : Type := Fin 8

/-- `Letter::to_u8`: `self as u8 + b'a'`. -/
def Letter.to_u8 (c : Letter) : Nat := c.val + 97

/-- `enum Instruction` from `day_21.rs`. -/
inductive Instruction where
  | swapPosition (pos1 pos2 : Nat)
  | swapLetters (let1 let2 : Letter)
  | rotateLeft (n : Nat)
  | rotateRight (n : Nat)
  | rotateByLetter (letter : Letter)
  | reverseRange (pos1 pos2 : Nat)
  | movePosition (pos1 pos2 : Nat)

/-- `<[u8]>::swap`, `none` (a panic) when an index is out of bounds. -/
def swap? (l : List Nat) (i j : Nat) : Option (List Nat) :=
  if i < l.length ∧ j < l.length then some (Utils.swapIdx l i j) else none

/-- `iter().position(|&ch| ch == c)`. -/
def position? (c : Nat) : List Nat → Option Nat
  | [] => none
  | x :: rest => if x = c then some 0 else (position? c rest).map (· + 1)

/-- In-range left rotation `l[n..] ++ l[..n]`. -/
def rotLeft (l : List Nat) (n : Nat) : List Nat := l.drop n ++ l.take n

/-- In-range right rotation. -/
def rotRight (l : List Nat) (n : Nat) : List Nat :=
  l.drop (l.length - n) ++ l.take (l.length - n)

/-- `rotate_left(n)`: `none` (a panic) when `n` exceeds the length. -/
def rotLeft? (l : List Nat) (n : Nat) : Option (List Nat) :=
  if n ≤ l.length then some (rotLeft l n) else none

/-- `rotate_right(n)`: `none` (a panic) when `n` exceeds the length. -/
def rotRight? (l : List Nat) (n : Nat) : Option (List Nat) :=
  if n ≤ l.length then some (rotRight l n) else none

/-- The `RotateByLetter` amount `(pos + 1 + usize::from(pos >= 4)) % len`. -/
def rotAmt (len pos : Nat) : Nat :=
  (pos + 1 + (if 4 ≤ pos then 1 else 0)) % len

/-- Apply a length-preserving operation to the inclusive sub-slice
`[a..=b]` (with `a ≤ b`); `none` (a panic) when the upper bound is out
of bounds. -/
def segMap (f : List Nat → List Nat) (l : List Nat) (a b : Nat) :
    Option (List Nat) :=
  if b < l.length then
    some (l.take a ++ (f ((l.drop a).take (b + 1 - a)) ++ l.drop (b + 1)))
  else none

/-- `rotate_left(1)` on a sub-slice. -/
def rotl1 (xs : List Nat) : List Nat := xs.drop 1 ++ xs.take 1

/-- `rotate_right(1)` on a sub-slice. -/
def rotr1 (xs : List Nat) : List Nat :=
  xs.drop (xs.length - 1) ++ xs.take (xs.length - 1)

/-- One instruction of `scamble` from `day_21.rs`. -/
def scambleStep (l : List Nat) : Instruction → Option (List Nat)
  | .swapPosition pos1 pos2 => swap? l pos1 pos2
  | .swapLetters let1 let2 =>
    match position? (Letter.to_u8 let1) l, position? (Letter.to_u8 let2) l with
    | some pos1, some pos2 => swap? l pos1 pos2
    | _, _ => none
  | .rotateLeft n => rotLeft? l n
  | .rotateRight n => rotRight? l n
  | .rotateByLetter letter =>
    match position? (Letter.to_u8 letter) l with
    | some pos => some (rotRight l (rotAmt l.length pos))
    | none => none
  | .reverseRange pos1 pos2 =>
    segMap List.reverse l (min pos1 pos2) (max pos1 pos2)
  | .movePosition pos1 pos2 =>
    if pos1 < pos2 then segMap rotl1 l pos1 pos2
    else if pos2 < pos1 then segMap rotr1 l pos2 pos1
    else some l

/-- One instruction of `unscamble` from `day_21.rs`: the inverse
operations, with the `RotateByLetter` candidate scan keeping the last
matching rotation (`matched_index` is overwritten on every match). -/
def unscambleStep (l : List Nat) : Instruction → Option (List Nat)
  | .swapPosition pos1 pos2 => swap? l pos1 pos2
  | .swapLetters let1 let2 =>
    match position? (Letter.to_u8 let1) l, position? (Letter.to_u8 let2) l with
    | some pos1, some pos2 => swap? l pos1 pos2
    | _, _ => none
  | .rotateLeft n => rotRight? l n
  | .rotateRight n => rotLeft? l n
  | .rotateByLetter letter =>
    some
      (match (List.range l.length).foldl
          (fun acc ci =>
            if (rotLeft l (rotAmt l.length ci))[ci]? = some (Letter.to_u8 letter)
            then some (rotAmt l.length ci) else acc) none with
        | some rot => rotLeft l rot
        | none => l)
  | .reverseRange pos1 pos2 =>
    segMap List.reverse l (min pos1 pos2) (max pos1 pos2)
  | .movePosition pos1 pos2 =>
    if pos1 < pos2 then segMap rotr1 l pos1 pos2
    else if pos2 < pos1 then segMap rotl1 l pos2 pos1
    else some l

/-- The `scamble` loop: instructions in order, stopping at a panic. -/
def scamble : List Nat → List Instruction → Option (List Nat)
  | l, [] => some l
  | l, instr :: rest =>
    match scambleStep l instr with
    | some l' => scamble l' rest
    | none => none

/-- Sequential processing for `unscamble`. -/
def unscambleGo : List Nat → List Instruction → Option (List Nat)
  | l, [] => some l
  | l, instr :: rest =>
    match unscambleStep l instr with
    | some l' => unscambleGo l' rest
    | none => none

/-- `unscamble` from `day_21.rs`: the instructions in reverse order. -/
def unscamble (l : List Nat) (instructions : List Instruction) :
    Option (List Nat) :=
  unscambleGo l instructions.reverse

/-- The byte values of `b"abcdefgh"`. -/
def letters : List Nat := [97, 98, 99, 100, 101, 102, 103, 104]

theorem rotLeft_length (l : List Nat) (k : Nat) :
    (rotLeft l k).length = l.length := by
  rw [rotLeft, List.length_append, List.length_drop, List.length_take]
  omega

theorem rotRight_length (l : List Nat) (k : Nat) :
    (rotRight l k).length = l.length := by
  rw [rotRight, List.length_append, List.length_drop, List.length_take]
  omega

theorem rotl1_length (xs : List Nat) : (rotl1 xs).length = xs.length := by
  rw [rotl1, List.length_append, List.length_drop, List.length_take]
  omega

theorem rotr1_length (xs : List Nat) : (rotr1 xs).length = xs.length := by
  rw [rotr1, List.length_append, List.length_drop, List.length_take]
  omega

theorem rotLeft_rotRight (l : List Nat) (k : Nat) (hk : k ≤ l.length) :
    rotLeft (rotRight l k) k = l := by
  rw [rotRight, rotLeft]
  have hD : (l.drop (l.length - k)).length = k := by
    rw [List.length_drop]
    omega
  rw [List.drop_left' hD, List.take_left' hD, List.take_append_drop]

theorem rotRight_rotLeft (l : List Nat) (k : Nat) (hk : k ≤ l.length) :
    rotRight (rotLeft l k) k = l := by
  rw [rotLeft, rotRight]
  have hD : (l.drop k).length = l.length - k := List.length_drop k l
  have hlen : (l.drop k ++ l.take k).length - k = l.length - k := by
    rw [List.length_append, List.length_drop, List.length_take]
    omega
  rw [hlen, List.drop_left' hD, List.take_left' hD, List.take_append_drop]

theorem rotr1_rotl1 (xs : List Nat) : rotr1 (rotl1 xs) = xs := by
  cases xs with
  | nil => rfl
  | cons x rest =>
    have h1 : rotl1 (x :: rest) = rotLeft (x :: rest) 1 := rfl
    have h2 : ∀ ys : List Nat, rotr1 ys = rotRight ys 1 := fun ys => rfl
    rw [h1, h2]
    exact rotRight_rotLeft (x :: rest) 1 (by simp)

theorem rotl1_rotr1 (xs : List Nat) : rotl1 (rotr1 xs) = xs := by
  cases xs with
  | nil => rfl
  | cons x rest =>
    have h1 : rotr1 (x :: rest) = rotRight (x :: rest) 1 := rfl
    have h2 : ∀ ys : List Nat, rotl1 ys = rotLeft ys 1 := fun ys => rfl
    rw [h1, h2]
    exact rotLeft_rotRight (x :: rest) 1 (by simp)

theorem rot_append_perm (l : List Nat) (k : Nat) :
    (l.drop k ++ l.take k).Perm l := by
  have h1 : (l.drop k ++ l.take k).Perm (l.take k ++ l.drop k) :=
    List.perm_append_comm
  rw [List.take_append_drop] at h1
  exact h1

theorem rotLeft_perm (l : List Nat) (k : Nat) : (rotLeft l k).Perm l :=
  rot_append_perm l k

theorem rotRight_perm (l : List Nat) (k : Nat) : (rotRight l k).Perm l :=
  rot_append_perm l (l.length - k)

theorem seg_reassemble (l : List Nat) (a b : Nat) (hab : a ≤ b)
    (hb : b < l.length) :
    l.take a ++ ((l.drop a).take (b + 1 - a) ++ l.drop (b + 1)) = l := by
  rw [← List.append_assoc, ← List.take_add,
    show a + (b + 1 - a) = b + 1 by omega, List.take_append_drop]

theorem segMap_eq_some {f : List Nat → List Nat} {l l' : List Nat} {a b : Nat}
    (h : segMap f l a b = some l') :
    b < l.length ∧
      l' = l.take a ++ (f ((l.drop a).take (b + 1 - a)) ++ l.drop (b + 1)) := by
  rw [segMap] at h
  by_cases hc : b < l.length
  · rw [if_pos hc] at h
    exact ⟨hc, (Option.some.inj h).symm⟩
  · rw [if_neg hc] at h
    cases h

theorem segMap_perm {f : List Nat → List Nat} (hf : ∀ xs, (f xs).Perm xs)
    {l l' : List Nat} {a b : Nat} (hab : a ≤ b)
    (h : segMap f l a b = some l') : l'.Perm l := by
  obtain ⟨hb, rfl⟩ := segMap_eq_some h
  have hmid := hf ((l.drop a).take (b + 1 - a))
  have hall : (l.take a ++ (f ((l.drop a).take (b + 1 - a)) ++ l.drop (b + 1))).Perm
      (l.take a ++ ((l.drop a).take (b + 1 - a) ++ l.drop (b + 1))) :=
    ((hmid.append_right (l.drop (b + 1))).append_left (l.take a))
  rw [seg_reassemble l a b hab hb] at hall
  exact hall

theorem segMap_segMap {f g : List Nat → List Nat} {l l' : List Nat} {a b : Nat}
    (hab : a ≤ b) (hf : ∀ xs, (f xs).length = xs.length)
    (hgf : ∀ xs, g (f xs) = xs)
    (h : segMap f l a b = some l') : segMap g l' a b = some l := by
  obtain ⟨hb, rfl⟩ := segMap_eq_some h
  have hta : (l.take a).length = a := by
    rw [List.length_take]
    omega
  have hmid : (f ((l.drop a).take (b + 1 - a))).length = b + 1 - a := by
    rw [hf, List.length_take, List.length_drop]
    omega
  have hlen : (l.take a ++ (f ((l.drop a).take (b + 1 - a)) ++ l.drop (b + 1))).length
      = l.length := by
    rw [List.length_append, List.length_append, hta, hmid, List.length_drop]
    omega
  rw [segMap, if_pos (by rw [hlen]; exact hb)]
  have htakea : (l.take a ++ (f ((l.drop a).take (b + 1 - a)) ++ l.drop (b + 1))).take a
      = l.take a := List.take_left' hta
  have hdropa : (l.take a ++ (f ((l.drop a).take (b + 1 - a)) ++ l.drop (b + 1))).drop a
      = f ((l.drop a).take (b + 1 - a)) ++ l.drop (b + 1) := List.drop_left' hta
  have hdropb : (l.take a ++ (f ((l.drop a).take (b + 1 - a)) ++ l.drop (b + 1))).drop (b + 1)
      = l.drop (b + 1) := by
    rw [← List.append_assoc]
    refine List.drop_left' ?_
    rw [List.length_append, hta, hmid]
    omega
  rw [htakea, hdropb, hdropa, List.take_left' hmid, hgf,
    seg_reassemble l a b hab hb]

theorem position?_some :
    ∀ (l : List Nat) (c p : Nat), position? c l = some p →
      p < l.length ∧ l[p]? = some c := by
  intro l
  induction l with
  | nil =>
    intro c p h
    simp [position?] at h
  | cons x rest ih =>
    intro c p h
    rw [position?] at h
    by_cases hx : x = c
    · rw [if_pos hx] at h
      obtain rfl : (0 : Nat) = p := Option.some.inj h
      exact ⟨by simp, by simp [hx]⟩
    · rw [if_neg hx] at h
      cases hrec : position? c rest with
      | none =>
        rw [hrec] at h
        simp at h
      | some q =>
        rw [hrec] at h
        simp only [Option.map_some'] at h
        obtain rfl : q + 1 = p := Option.some.inj h
        obtain ⟨hql, hqv⟩ := ih c q hrec
        exact ⟨by simp; omega, by simpa using hqv⟩

theorem position?_of_mem :
    ∀ (l : List Nat) (c : Nat), c ∈ l → ∃ p, position? c l = some p := by
  intro l
  induction l with
  | nil =>
    intro c hc
    simp at hc
  | cons x rest ih =>
    intro c hc
    rw [position?]
    by_cases hx : x = c
    · exact ⟨0, by rw [if_pos hx]⟩
    · have hc' : c ∈ rest := by
        rcases List.mem_cons.mp hc with rfl | h
        · exact absurd rfl hx
        · exact h
      obtain ⟨p, hp⟩ := ih c hc'
      exact ⟨p + 1, by rw [if_neg hx, hp]; rfl⟩

theorem position?_eq_of_nodup :
    ∀ (l : List Nat), l.Nodup → ∀ (c p : Nat), p < l.length →
      l[p]? = some c → position? c l = some p := by
  intro l
  induction l with
  | nil =>
    intro _ c p hp
    simp at hp
  | cons x rest ih =>
    intro hnd c p hp hv
    obtain ⟨hx, hnd'⟩ := List.nodup_cons.mp hnd
    cases p with
    | zero =>
      have hxc : x = c := by simpa using hv
      rw [position?, if_pos hxc]
    | succ q =>
      have hv' : rest[q]? = some c := by simpa using hv
      have hxc : ¬ x = c := by
        intro h
        subst h
        exact hx (List.getElem?_mem hv')
      rw [position?, if_neg hxc, ih hnd' c q (by simpa using hp) hv']
      rfl

theorem swap?_eq_some {l l' : List Nat} {i j : Nat}
    (h : swap? l i j = some l') :
    i < l.length ∧ j < l.length ∧ l' = Utils.swapIdx l i j := by
  rw [swap?] at h
  by_cases hc : i < l.length ∧ j < l.length
  · rw [if_pos hc] at h
    exact ⟨hc.1, hc.2, (Option.some.inj h).symm⟩
  · rw [if_neg hc] at h
    cases h

theorem swap?_perm {l l' : List Nat} {i j : Nat}
    (h : swap? l i j = some l') : l'.Perm l := by
  obtain ⟨_, _, rfl⟩ := swap?_eq_some h
  exact Utils.swapIdx_perm l i j

theorem swap?_inv {l l' : List Nat} {i j : Nat}
    (h : swap? l i j = some l') : swap? l' i j = some l := by
  obtain ⟨hi, hj, rfl⟩ := swap?_eq_some h
  rw [swap?, if_pos (by rw [Utils.swapIdx_length]; exact ⟨hi, hj⟩),
    Utils.swapIdx_swapIdx l i j hi hj]

theorem swapIdx_eq_set (l : List Nat) (i j : Nat) (hi : i < l.length)
    (hj : j < l.length) :
    Utils.swapIdx l i j = (l.set i l[j]).set j l[i] := by
  simp only [Utils.swapIdx, List.getElem?_eq_getElem hi,
    List.getElem?_eq_getElem hj]

theorem swapIdx_self (l : List Nat) (i : Nat) (hi : i < l.length) :
    Utils.swapIdx l i i = l := by
  rw [swapIdx_eq_set l i i hi hi, List.set_set]
  exact Utils.set_self l i hi

theorem swapIdx_comm (l : List Nat) (i j : Nat) (hi : i < l.length)
    (hj : j < l.length) :
    Utils.swapIdx l i j = Utils.swapIdx l j i := by
  rcases eq_or_ne i j with rfl | hij
  · rfl
  · rw [swapIdx_eq_set l i j hi hj, swapIdx_eq_set l j i hj hi,
      List.set_comm _ _ _ hij]

theorem rotLeft_getElem? (l : List Nat) (k ci : Nat) (hk : k ≤ l.length)
    (hci : ci < l.length) :
    (rotLeft l k)[ci]? = l[(ci + k) % l.length]? := by
  rw [rotLeft]
  rcases Nat.lt_or_ge ci (l.length - k) with h | h
  · rw [List.getElem?_append, if_pos (by rw [List.length_drop]; omega),
      List.getElem?_drop]
    congr 1
    rw [Nat.mod_eq_of_lt (by omega)]
    omega
  · have hlen : (l.drop k).length = l.length - k := List.length_drop k l
    rw [List.getElem?_append_right (by rw [hlen]; omega), hlen,
      List.getElem?_take, if_pos (by omega)]
    congr 1
    rw [Nat.mod_eq_sub_mod (by omega), Nat.mod_eq_of_lt (by omega)]
    omega

theorem foldl_lastPick_none {β : Type} (P : Nat → Prop) [DecidablePred P]
    (f : Nat → β) :
    ∀ (xs : List Nat) (acc : Option β), (∀ x ∈ xs, ¬ P x) →
      xs.foldl (fun a ci => if P ci then some (f ci) else a) acc = acc := by
  intro xs
  induction xs with
  | nil => intro acc _; rfl
  | cons x rest ih =>
    intro acc hall
    rw [List.foldl_cons, if_neg (hall x (by simp))]
    exact ih acc fun y hy => hall y (by simp [hy])

theorem foldl_lastPick_unique {β : Type} (P : Nat → Prop) [DecidablePred P]
    (f : Nat → β) :
    ∀ (xs1 : List Nat) (p : Nat) (xs2 : List Nat) (acc : Option β),
      P p → (∀ x ∈ xs2, ¬ P x) →
      (xs1 ++ p :: xs2).foldl (fun a ci => if P ci then some (f ci) else a) acc
        = some (f p) := by
  intro xs1
  induction xs1 with
  | nil =>
    intro p xs2 acc hp hall
    rw [List.nil_append, List.foldl_cons, if_pos hp]
    exact foldl_lastPick_none P f xs2 (some (f p)) hall
  | cons x xs1 ih =>
    intro p xs2 acc hp hall
    rw [List.cons_append, List.foldl_cons]
    exact ih p xs2 _ hp hall

theorem rotLeft?_eq_some {l l' : List Nat} {n : Nat}
    (h : rotLeft? l n = some l') : n ≤ l.length ∧ l' = rotLeft l n := by
  rw [rotLeft?] at h
  by_cases hc : n ≤ l.length
  · rw [if_pos hc] at h
    exact ⟨hc, (Option.some.inj h).symm⟩
  · rw [if_neg hc] at h
    cases h

theorem rotRight?_eq_some {l l' : List Nat} {n : Nat}
    (h : rotRight? l n = some l') : n ≤ l.length ∧ l' = rotRight l n := by
  rw [rotRight?] at h
  by_cases hc : n ≤ l.length
  · rw [if_pos hc] at h
    exact ⟨hc, (Option.some.inj h).symm⟩
  · rw [if_neg hc] at h
    cases h

/-- The candidate scan of the `RotateByLetter` arm of `unscamble`
recovers the original slice: for an 8-letter duplicate-free slice the
map `pos ↦ (pos + rotAmt 8 pos) % 8` is injective, so exactly one
candidate matches and its rotation undoes the scramble rotation. -/
theorem rotByLetter_unscamble (letter : Letter) {l : List Nat}
    (hlen : l.length = 8) (hnd : l.Nodup) {p : Nat} (hpl : p < 8)
    (hpv : l[p]? = some (Letter.to_u8 letter)) :
    unscambleStep (rotRight l (rotAmt 8 p)) (.rotateByLetter letter)
      = some l := by
  have hr8 : rotAmt 8 p < 8 := Nat.mod_lt _ (by norm_num)
  have hslen : (rotRight l (rotAmt 8 p)).length = 8 := by
    rw [rotRight_length, hlen]
  have hAinj : ∀ ci1, ci1 < 8 → ∀ ci2, ci2 < 8 →
      (ci1 + rotAmt 8 ci1) % 8 = (ci2 + rotAmt 8 ci2) % 8 → ci1 = ci2 := by
    decide
  have hp_self : ((p + rotAmt 8 p) % 8 + (8 - rotAmt 8 p)) % 8 = p := by
    have hB2 : (p + rotAmt 8 p) % 8 < 8 := Nat.mod_lt _ (by norm_num)
    omega
  have hchar : ∀ ci, ci < 8 →
      ((rotLeft (rotRight l (rotAmt 8 p)) (rotAmt 8 ci))[ci]?
          = some (Letter.to_u8 letter) ↔ ci = p) := by
    intro ci hci
    have hcia : rotAmt 8 ci < 8 := Nat.mod_lt _ (by norm_num)
    rw [rotLeft_getElem? _ _ _ (by omega) (by omega), hslen]
    have hrr : rotRight l (rotAmt 8 p)
        = rotLeft l (l.length - rotAmt 8 p) := rfl
    rw [hrr, rotLeft_getElem? _ _ _ (by omega) (by rw [hlen]; omega), hlen]
    have hB1 : (ci + rotAmt 8 ci) % 8 < 8 := Nat.mod_lt _ (by norm_num)
    have hB2 : (p + rotAmt 8 p) % 8 < 8 := Nat.mod_lt _ (by norm_num)
    constructor
    · intro h
      have hE : ((ci + rotAmt 8 ci) % 8 + (8 - rotAmt 8 p)) % 8 = p :=
        List.getElem?_inj
          (by rw [hlen]; exact Nat.mod_lt _ (by norm_num)) hnd
          (h.trans hpv.symm)
      exact hAinj ci hci p hpl (by omega)
    · intro h
      subst h
      rw [hp_self]
      exact hpv
  simp only [unscambleStep]
  rw [hslen]
  have hsplit : List.range 8
      = List.range' 0 p ++ (p :: List.range' (p + 1) (7 - p)) := by
    rw [List.range_eq_range']
    have h := List.range'_append 0 p (8 - p) 1
    rw [one_mul, Nat.zero_add] at h
    rw [show 8 - p + p = 8 by omega] at h
    rw [← h]
    congr 1
    rw [show 8 - p = (7 - p) + 1 by omega, List.range'_succ]
  have hafter : ∀ x ∈ List.range' (p + 1) (7 - p),
      ¬ (rotLeft (rotRight l (rotAmt 8 p)) (rotAmt 8 x))[x]?
        = some (Letter.to_u8 letter) := by
    intro x hx hPx
    rw [List.mem_range'_1] at hx
    have := (hchar x (by omega)).mp hPx
    omega
  rw [hsplit, foldl_lastPick_unique _ _ (List.range' 0 p) p
    (List.range' (p + 1) (7 - p)) none ((hchar p hpl).mpr rfl) hafter]
  show some (rotLeft (rotRight l (rotAmt 8 p)) (rotAmt 8 p)) = some l
  rw [rotLeft_rotRight l (rotAmt 8 p) (by omega)]

theorem scambleStep_perm {l l' : List Nat} {instr : Instruction}
    (h : scambleStep l instr = some l') : l'.Perm l := by
  cases instr with
  | swapPosition p1 p2 => exact swap?_perm h
  | swapLetters c1 c2 =>
    simp only [scambleStep] at h
    cases h1 : position? (Letter.to_u8 c1) l with
    | none => simp [h1] at h
    | some q1 =>
      cases h2 : position? (Letter.to_u8 c2) l with
      | none => simp [h1, h2] at h
      | some q2 =>
        simp only [h1, h2] at h
        exact swap?_perm h
  | rotateLeft n =>
    obtain ⟨hn, rfl⟩ := rotLeft?_eq_some h
    exact rotLeft_perm l n
  | rotateRight n =>
    obtain ⟨hn, rfl⟩ := rotRight?_eq_some h
    exact rotRight_perm l n
  | rotateByLetter letter =>
    simp only [scambleStep] at h
    cases h1 : position? (Letter.to_u8 letter) l with
    | none => simp [h1] at h
    | some q =>
      simp only [h1] at h
      obtain rfl := Option.some.inj h
      exact rotRight_perm l _
  | reverseRange p1 p2 =>
    exact segMap_perm (fun xs => xs.reverse_perm) min_le_max h
  | movePosition p1 p2 =>
    simp only [scambleStep] at h
    by_cases h12 : p1 < p2
    · rw [if_pos h12] at h
      exact segMap_perm (fun xs => rot_append_perm xs 1) (by omega) h
    · rw [if_neg h12] at h
      by_cases h21 : p2 < p1
      · rw [if_pos h21] at h
        exact segMap_perm (fun xs => rot_append_perm xs (xs.length - 1))
          (by omega) h
      · rw [if_neg h21] at h
        obtain rfl := Option.some.inj h
        exact List.Perm.refl l

/-- Per-instruction inversion: on a permutation of `abcdefgh`, the
`unscamble` operation for an instruction undoes the successful
`scamble` operation for the same instruction. -/
theorem unscambleStep_scambleStep {l l' : List Nat} (hl : l.Perm letters)
    {instr : Instruction} (h : scambleStep l instr = some l') :
    unscambleStep l' instr = some l := by
  have hlen : l.length = 8 := by simpa using hl.length_eq
  have hnd : l.Nodup := (hl.nodup_iff).mpr (by decide)
  cases instr with
  | swapPosition p1 p2 => exact swap?_inv h
  | swapLetters c1 c2 =>
    simp only [scambleStep] at h
    cases h1 : position? (Letter.to_u8 c1) l with
    | none => simp [h1] at h
    | some p1 =>
      cases h2 : position? (Letter.to_u8 c2) l with
      | none => simp [h1, h2] at h
      | some p2 =>
        simp only [h1, h2] at h
        obtain ⟨hp1l, hp2l, rfl⟩ := swap?_eq_some h
        obtain ⟨_, hv1⟩ := position?_some l _ p1 h1
        obtain ⟨_, hv2⟩ := position?_some l _ p2 h2
        have hv1' : l[p1] = Letter.to_u8 c1 :=
          Option.some.inj ((List.getElem?_eq_getElem hp1l).symm.trans hv1)
        have hv2' : l[p2] = Letter.to_u8 c2 :=
          Option.some.inj ((List.getElem?_eq_getElem hp2l).symm.trans hv2)
        have hnd' : (Utils.swapIdx l p1 p2).Nodup :=
          ((Utils.swapIdx_perm l p1 p2).nodup_iff).mpr hnd
        have hlen' : (Utils.swapIdx l p1 p2).length = l.length :=
          Utils.swapIdx_length l p1 p2
        rcases eq_or_ne p1 p2 with rfl | hne
        · rw [swapIdx_self l p1 hp1l]
          simp only [unscambleStep, h1, h2]
          rw [swap?, if_pos ⟨hp1l, hp1l⟩, swapIdx_self l p1 hp1l]
        · have hset : Utils.swapIdx l p1 p2 = (l.set p1 l[p2]).set p2 l[p1] :=
            swapIdx_eq_set l p1 p2 hp1l hp2l
          have hg2 : (Utils.swapIdx l p1 p2)[p2]? = some (Letter.to_u8 c1) := by
            rw [hset, List.getElem?_eq_getElem
              (by rw [List.length_set, List.length_set]; exact hp2l),
              List.getElem_set_self, hv1']
          have hg1 : (Utils.swapIdx l p1 p2)[p1]? = some (Letter.to_u8 c2) := by
            rw [hset, List.getElem?_eq_getElem
              (by rw [List.length_set, List.length_set]; exact hp1l),
              List.getElem_set_of_ne (Ne.symm hne), List.getElem_set_self,
              hv2']
          have hq1 : position? (Letter.to_u8 c1) (Utils.swapIdx l p1 p2)
              = some p2 :=
            position?_eq_of_nodup _ hnd' _ p2 (by rw [hlen']; exact hp2l) hg2
          have hq2 : position? (Letter.to_u8 c2) (Utils.swapIdx l p1 p2)
              = some p1 :=
            position?_eq_of_nodup _ hnd' _ p1 (by rw [hlen']; exact hp1l) hg1
          simp only [unscambleStep, hq1, hq2]
          rw [swap?, if_pos (by rw [hlen']; exact ⟨hp2l, hp1l⟩),
            swapIdx_comm _ p2 p1 (by rw [hlen']; exact hp2l)
              (by rw [hlen']; exact hp1l),
            Utils.swapIdx_swapIdx l p1 p2 hp1l hp2l]
  | rotateLeft n =>
    obtain ⟨hn, rfl⟩ := rotLeft?_eq_some h
    show rotRight? (rotLeft l n) n = some l
    rw [rotRight?, if_pos (by rw [rotLeft_length]; exact hn),
      rotRight_rotLeft l n hn]
  | rotateRight n =>
    obtain ⟨hn, rfl⟩ := rotRight?_eq_some h
    show rotLeft? (rotRight l n) n = some l
    rw [rotLeft?, if_pos (by rw [rotRight_length]; exact hn),
      rotLeft_rotRight l n hn]
  | rotateByLetter letter =>
    simp only [scambleStep] at h
    cases h1 : position? (Letter.to_u8 letter) l with
    | none => simp [h1] at h
    | some p =>
      simp only [h1] at h
      obtain rfl := Option.some.inj h
      obtain ⟨hpl, hpv⟩ := position?_some l _ p h1
      rw [hlen] at hpl
      rw [hlen]
      exact rotByLetter_unscamble letter hlen hnd hpl hpv
  | reverseRange p1 p2 =>
    exact segMap_segMap min_le_max (fun xs => List.length_reverse xs)
      (fun xs => List.reverse_reverse xs) h
  | movePosition p1 p2 =>
    simp only [scambleStep] at h
    simp only [unscambleStep]
    by_cases h12 : p1 < p2
    · rw [if_pos h12] at h
      rw [if_pos h12]
      exact segMap_segMap (by omega) rotl1_length rotr1_rotl1 h
    · rw [if_neg h12] at h
      rw [if_neg h12]
      by_cases h21 : p2 < p1
      · rw [if_pos h21] at h
        rw [if_pos h21]
        exact segMap_segMap (by omega) rotr1_length rotl1_rotr1 h
      · rw [if_neg h21] at h
        rw [if_neg h21]
        obtain rfl := Option.some.inj h
        rfl

theorem unscambleGo_append :
    ∀ (xs : List Instruction) (l : List Nat) (ys : List Instruction),
      unscambleGo l (xs ++ ys)
        = match unscambleGo l xs with
          | some m => unscambleGo m ys
          | none => none := by
  intro xs
  induction xs with
  | nil => intro l ys; rfl
  | cons instr xs ih =>
    intro l ys
    cases hstep : unscambleStep l instr with
    | none => simp only [List.cons_append, unscambleGo, hstep]
    | some l' =>
      simp only [List.cons_append, unscambleGo, hstep]
      exact ih l' ys

/-- The whole-program inversion, by induction over the instruction
list. -/
theorem scamble_unscamble :
    ∀ (instructions : List Instruction) (l s : List Nat), l.Perm letters →
      scamble l instructions = some s →
      unscambleGo s instructions.reverse = some l := by
  intro instructions
  induction instructions with
  | nil =>
    intro l s hl h
    obtain rfl := Option.some.inj h
    rfl
  | cons instr rest ih =>
    intro l s hl h
    cases hstep : scambleStep l instr with
    | none =>
      simp only [scamble, hstep] at h
      exact Option.noConfusion h
    | some l' =>
      simp only [scamble, hstep] at h
      have hl' : l'.Perm letters := (scambleStep_perm hstep).trans hl
      rw [List.reverse_cons, unscambleGo_append, ih l' s hl' h]
      show unscambleGo l' [instr] = some l
      have hinv := unscambleStep_scambleStep hl hstep
      simp only [unscambleGo, hinv]

end Day21

/-- C1: for every list of parsed day-21 instructions and every 8-byte
password over `a`–`h` with each letter occurring exactly once (a
permutation of `b"abcdefgh"`), whenever `scamble` completes without
panicking, `unscamble` applied to its result restores the original
password: the part-2 unscrambler is a left inverse of the part-1
scrambler on such passwords. -/
theorem claim_C1 (instructions : List Day21.Instruction)
    (password scrambled : List Nat) (hp : password.Perm Day21.letters)
    (hs : Day21.scamble password instructions = some scrambled) :
    Day21.unscamble scrambled instructions = some password :=
  Day21.scamble_unscamble instructions password scrambled hp hs

/-- Witness for C1: a four-instruction program exercising rotation by
letter, position swap, range reversal and move, on `abcdefgh`. -/
theorem claim_C1_witness :
    Day21.scamble [97, 98, 99, 100, 101, 102, 103, 104]
        [Day21.Instruction.rotateByLetter ⟨2, by norm_num⟩,
         Day21.Instruction.swapPosition 0 5,
         Day21.Instruction.reverseRange 2 4,
         Day21.Instruction.movePosition 1 6]
      = some [99, 98, 97, 104, 102, 100, 103, 101] ∧
    Day21.unscamble [99, 98, 97, 104, 102, 100, 103, 101]
        [Day21.Instruction.rotateByLetter ⟨2, by norm_num⟩,
         Day21.Instruction.swapPosition 0 5,
         Day21.Instruction.reverseRange 2 4,
         Day21.Instruction.movePosition 1 6]
      = some [97, 98, 99, 100, 101, 102, 103, 104] :=
  ⟨by decide, claim_C1 _ _ _ (by decide) (by decide)⟩

/-! ## Day 11: the elevator search (`src/day_11.rs`) -/

namespace Day11

/-- `enum Item` from `day_11.rs`. -/
inductive Item where
  | generator (material : Nat)
  | chip (material : Nat)
deriving DecidableEq

/-- The part of `struct Facility` that `solve` observes: the number of
materials and the sorted `(item, floor)` list, floors as `0..=3`. -/
structure Facility where
  material_count : Nat
  items : List (Item × Nat)

/-- `struct State`: the bit-packed floors.  The two bits of item `i` are
the base-4 digit `i` of `bits`; slots `0..n` are meant to be the
generators, `n..2n` the chips, and `2n` the elevator.  `round` is a `u8`
in the source; increments wrap at `2 ^ 8`. -/
structure State where
  bits : Nat
  material_count : Nat
  round : Nat
deriving DecidableEq

/-- `State::from_facility`: packs the floors of `facility.items` in
order into consecutive 2-bit slots (`bits = (bits << 2) | floor` over
the reversed list), regardless of which item each entry is. -/
def State.from_facility (f : Facility) : State :=
  ⟨(f.items.reverse).foldl (fun b p => b * 4 + p.2) 0, f.material_count, 0⟩

/-- `State::floor_of`: `(bits >> (2 * item)) & 0b11`. -/
def State.floorOf (s : State) (item : Nat) : Nat :=
  s.bits / 4 ^ item % 4

/-- `State::elevator_floor`: the elevator is the `2n`'th item. -/
def State.elevatorFloor (s : State) : Nat :=
  s.floorOf (2 * s.material_count)

/-- `State::with_item`: clear the 2-bit slot and set it to `floor`
(replacing base-4 digit `item`). -/
def State.withItem (s : State) (item floor : Nat) : State :=
  { s with
    bits := s.bits % 4 ^ item + floor * 4 ^ item
      + s.bits / 4 ^ (item + 1) * 4 ^ (item + 1) }

/-- `State::with_elevator`. -/
def State.withElevator (s : State) (floor : Nat) : State :=
  s.withItem (2 * s.material_count) floor

/-- `State::with_next_round` (`round` is a `u8`). -/
def State.withNextRound (s : State) : State :=
  { s with round := (s.round + 1) % 2 ^ 8 }

/-- `Floor::up`. -/
def floorUp (f : Nat) : Option Nat := if f = 3 then none else some (f + 1)

/-- `Floor::down`. -/
def floorDown (f : Nat) : Option Nat := if f = 0 then none else some (f - 1)

/-- The sort key of `normalize`'s `sort_unstable` on `(Floor, Floor)`. -/
def pairLE (a b : Nat × Nat) : Bool :=
  decide (a.1 < b.1 ∨ (a.1 = b.1 ∧ a.2 ≤ b.2))

/-- Ordered insertion for `sortPairs`. -/
def insertPair (x : Nat × Nat) : List (Nat × Nat) → List (Nat × Nat)
  | [] => [x]
  | y :: rest => if pairLE x y then x :: y :: rest else y :: insertPair x rest

/-- `sort_unstable` on the `(Floor, Floor)` pairs, as a structurally
recursive insertion sort (same sorted result). -/
def sortPairs (l : List (Nat × Nat)) : List (Nat × Nat) :=
  l.foldr insertPair []

/-- `State::normalize`: sort the (generator, chip) floor pairs and
repack. -/
def State.normalize (s : State) : State :=
  let n := s.material_count
  let sorted := sortPairs ((List.range n).map
    (fun m => (s.floorOf m, s.floorOf (n + m))))
  let elevator := s.elevatorFloor
  sorted.enum.foldl
    (fun acc mgc => (acc.withItem mgc.1 mgc.2.1).withItem (n + mgc.1) mgc.2.2)
    (State.withElevator { s with bits := 0 } elevator)

/-- `State::is_safe`. -/
def State.isSafe (s : State) : Bool :=
  let n := s.material_count
  (List.range n).all fun material =>
    s.floorOf material == s.floorOf (n + material)
      || !((List.range n).any fun generator =>
            s.floorOf generator == s.floorOf (n + material))

/-- `State::is_completed`: items `0..=2n` all on the fourth floor. -/
def State.isCompleted (s : State) : Bool :=
  (List.range (2 * s.material_count + 1)).all fun item => s.floorOf item == 3

/-- `State::enqueue_moves`, with the two prunings of the source: after a
safe single move down the double moves are skipped, and a safe double
move up replaces (`pop_back`) the earlier safe single move up. -/
def State.enqueueMoves (s : State) (queue : List State) : List State :=
  let item_count := s.material_count * 2
  let elevator := s.elevatorFloor
  ([floorUp elevator, floorDown elevator].filterMap id).foldl
    (fun q new_floor =>
      (List.range item_count).foldl
        (fun q1 item1 =>
          if s.floorOf item1 = elevator then
            let new_state :=
              ((s.withNextRound).withElevator new_floor).withItem item1 new_floor
            if new_state.isSafe ∧ new_floor < elevator then q1 ++ [new_state]
            else
              let start : List State × Bool :=
                if new_state.isSafe then (q1 ++ [new_state], true)
                else (q1, false)
              ((List.range' (item1 + 1) (item_count - (item1 + 1))).foldl
                (fun acc item2 =>
                  if s.floorOf item2 = elevator then
                    let ns2 := new_state.withItem item2 new_floor
                    if ns2.isSafe then
                      if acc.2 = true ∧ elevator < new_floor then
                        (acc.1.dropLast ++ [ns2], false)
                      else (acc.1 ++ [ns2], acc.2)
                    else acc
                  else acc) start).1
          else q1)
        q)
    queue

/-- The `while let Some(state) = queue.pop_front()` loop of `solve`:
normalize, deduplicate on the normalized bits, test completion, expand.
`fuel` bounds the number of iterations; the loop of the source runs
until the queue empties. -/
def solveGo : Nat → List Nat → List State → Nat
  | 0, _, _ => 0
  | _ + 1, _, [] => 0
  | fuel + 1, visitedBits, st :: rest =>
    let st' := st.normalize
    if st'.bits ∈ visitedBits then solveGo fuel visitedBits rest
    else if st'.isCompleted then st'.round
    else solveGo fuel (st'.bits :: visitedBits) (st'.enqueueMoves rest)

/-- `solve` from `day_11.rs` (the `HashSet`, whose `Eq`/`Hash` observe
only `bits`, is the list of visited bit patterns). -/
def solve (state : State) (fuel : Nat) : Nat :=
  solveGo fuel [] [state]

/-- Specification side of C3, following the claim's words: a
configuration gives the elevator's floor and the floor of every item of
the facility. -/
structure Config where
  elevator : Nat
  itemFloors : List Nat
deriving DecidableEq

/-- The starting configuration: elevator on the first floor, items on
their parsed floors. -/
def initConfig (f : Facility) : Config :=
  ⟨0, f.items.map (fun p => p.2)⟩

/-- One floor up or down (floors `0..=3`). -/
def adjacentFloor (a b : Nat) : Prop :=
  (b = a + 1 ∧ b ≤ 3) ∨ a = b + 1

/-- The claim's safety condition: no microchip shares a floor with a
generator of another material unless its own generator is on that floor
too. -/
def SpecSafe (f : Facility) (c : Config) : Prop :=
  ∀ (kc mc kg mg fl : Nat),
    f.items[kc]?.map Prod.fst = some (Item.chip mc) →
    f.items[kg]?.map Prod.fst = some (Item.generator mg) →
    mg ≠ mc →
    c.itemFloors[kc]? = some fl →
    c.itemFloors[kg]? = some fl →
    ∃ ko : Nat, f.items[ko]?.map Prod.fst = some (Item.generator mc) ∧
      c.itemFloors[ko]? = some fl

/-- One elevator move per the claim: carry one or two items from the
elevator's floor to an adjacent floor, landing in a safe configuration. -/
inductive SpecStep (f : Facility) : Config → Config → Prop
  | move (c : Config) (dst : Nat) (carried : List Nat)
      (hadj : adjacentFloor c.elevator dst)
      (hne : carried ≠ []) (hlen : carried.length ≤ 2)
      (hnd : carried.Nodup)
      (hsrc : ∀ k ∈ carried, c.itemFloors[k]? = some c.elevator)
      (hsafe : SpecSafe f ⟨dst, carried.foldl (fun acc k => acc.set k dst)
        c.itemFloors⟩) :
      SpecStep f c ⟨dst, carried.foldl (fun acc k => acc.set k dst)
        c.itemFloors⟩

/-- Safe move sequences of length `d` from the start. -/
inductive SpecReach (f : Facility) : Nat → Config → Prop
  | init (hsafe : SpecSafe f (initConfig f)) : SpecReach f 0 (initConfig f)
  | step {d : Nat} {c c' : Config} : SpecReach f d c → SpecStep f c c' →
      SpecReach f (d + 1) c'

/-- Everything on the fourth floor. -/
def SpecCompleted (c : Config) : Prop :=
  c.elevator = 3 ∧ ∀ fl ∈ c.itemFloors, fl = 3

/-- The facility can be completed in exactly `d` safe moves. -/
def CompletesIn (f : Facility) (d : Nat) : Prop :=
  ∃ c, SpecReach f d c ∧ SpecCompleted c

/-- A parsed facility with a single item: one generator already on the
fourth floor (`"The fourth floor contains a hydrogen generator."`). -/
def exFacility : Facility := ⟨1, [(Item.generator 0, 3)]⟩

end Day11

/-- C3 (divergence evidence): `parse` accepts facilities in which a
material lacks its chip (or generator), but `State::from_facility`
assumes complete pairs and packs item floors positionally, inventing a
phantom chip on the first floor here.  On the facility with a single
generator already on the fourth floor, the described puzzle admits no
move at all (the elevator has no item on its floor to carry), so no
number of safe moves completes it; yet `solve` searches the mispacked
state and returns `3`, which is therefore not the minimum number of
moves of any completing sequence. -/
theorem claim_C3 :
    Day11.solve (Day11.State.from_facility Day11.exFacility) 1000 = 3 ∧
    ∀ d : Nat, ¬ Day11.CompletesIn Day11.exFacility d := by
  constructor
  · decide
  · have hnostep : ∀ c', ¬ Day11.SpecStep Day11.exFacility
        (Day11.initConfig Day11.exFacility) c' := by
      intro c' h
      cases h with
      | move dst carried hadj hne hlen hnd hsrc hsafe =>
        obtain ⟨k, hk⟩ := List.exists_mem_of_ne_nil carried hne
        have hsk := hsrc k hk
        match k with
        | 0 => simp [Day11.initConfig, Day11.exFacility] at hsk
        | k + 1 => simp [Day11.initConfig, Day11.exFacility] at hsk
    have hreach : ∀ d c, Day11.SpecReach Day11.exFacility d c →
        c = Day11.initConfig Day11.exFacility := by
      intro d c h
      induction h with
      | init _ => rfl
      | step hprev hstep ih =>
        rw [ih] at hstep
        exact absurd hstep (hnostep _)
    rintro d ⟨c, hr, hcomp⟩
    rw [hreach d c hr] at hcomp
    have h0 := hcomp.1
    simp [Day11.initConfig] at h0

end AoC2016
